import Mathlib

/-!
Verification development for the search and indexing core of the
paper-index-tool repository: fragment extraction, text chunking,
vector-search aggregation, combined lexical search, and the named
vector-index registry.  Python source functions are shallowly embedded
as executable Lean definitions; machine floats used only for score
comparison are modelled by rationals, and raised exceptions by
`Except` values.
-/

namespace PaperIndex

/-- The closed set of entry collections (`EntryType` in search.py). -/
inductive EntryType where
  | paper
  | book
  | media
deriving DecidableEq, Repr

/-- A raised Python exception, as far as the embedded code distinguishes them. -/
inductive PyErr where
  | valueError
deriving DecidableEq, Repr

/-! ### Python string primitives used by search.py and chunking.py

These are written by structural recursion over character lists so that a
concrete evaluation reduces inside the kernel. -/

/-- Split a character list at every separator character (separators are
dropped, empty pieces kept — the semantics of Python `str.split(sep)`). -/
def splitCharsBy (p : Char → Bool) : List Char → List (List Char)
  | [] => [[]]
  | c :: rest =>
    match splitCharsBy p rest with
    | [] => [[]]
    | w :: ws => if p c then [] :: w :: ws else (c :: w) :: ws

/-- Model of Python `str.splitlines()` for newline-separated text:
split on the line feed character and drop a final empty piece. -/
def splitlines (s : String) : List String :=
  let ps := (splitCharsBy (fun c => c = '\n') s.toList).map fun l => String.mk l
  if ps.getLast? = some "" then ps.dropLast else ps

/-- Model of Python `str.split()` with no argument: split on whitespace
runs, returning no empty words. -/
def pySplitWhitespace (s : String) : List String :=
  ((splitCharsBy Char.isWhitespace s.toList).map fun l => String.mk l).filter
    (fun w => w ≠ "")

/-- Strip whitespace from both ends of a character list (Python `strip`). -/
def stripChars (l : List Char) : List Char :=
  ((l.dropWhile Char.isWhitespace).reverse.dropWhile Char.isWhitespace).reverse

/-- Model of Python `str.strip()`. -/
def pyStrip (s : String) : String := String.mk (stripChars s.toList)

/-- Does `pat` occur at the head of the second list? -/
def prefixCheck : List Char → List Char → Bool
  | [], _ => true
  | _ :: _, [] => false
  | a :: as, b :: bs => a = b && prefixCheck as bs

/-- Does `pat` occur contiguously anywhere in the list (Python `in`)? -/
def infixCheck (pat : List Char) : List Char → Bool
  | [] => prefixCheck pat []
  | c :: rest => prefixCheck pat (c :: rest) || infixCheck pat rest

/-- Python list slicing `l[a:b]` for `0 ≤ a ≤ b` (clamped at the length). -/
def pySlice {α : Type} (l : List α) (a b : Nat) : List α :=
  (l.drop a).take (b - a)

/-- Case-insensitive substring test: Python `term.lower() in line.lower()`. -/
def containsTerm (line term : String) : Bool :=
  infixCheck (term.toList.map Char.toLower) (line.toList.map Char.toLower)

/-- A line matches when any query term occurs in it case-insensitively
(the inner loop of `extract_fragments`). -/
def lineHasMatch (query_terms : List String) (line : String) : Bool :=
  query_terms.any (fun t => containsTerm line t)

/-! ### Fragment extraction (`extract_fragments` in search.py) -/

/-- A context fragment as returned by `extract_fragments`
(`line_start`/`line_end` are 1-based and inclusive). -/
structure Fragment where
  line_start : Nat
  line_end : Nat
  lines : List String
  matched_line_numbers : List Nat
deriving DecidableEq, Repr

/-- The fragment opened for a single matched line index `m` (0-based):
window `[m - cl, m + cl]` clamped to the document, materialised. -/
def mkWindowFragment (ls : List String) (cl m : Nat) : Fragment :=
  let s := m - cl
  let e := min (ls.length - 1) (m + cl)
  ⟨s + 1, e + 1, pySlice ls s (e + 1), [m + 1]⟩

/-- The fragment-building loop of `extract_fragments`: walk the remaining
matched line indices, merging each window into the open fragment when it
touches or overlaps it, otherwise closing the fragment (stopping at
`maxF` closed fragments). -/
def fragLoop (ls : List String) (cl maxF : Nat) :
    List Nat → Fragment → List Fragment → List Fragment
  | [], cur, acc => if acc.length < maxF then acc ++ [cur] else acc
  | m :: rest, cur, acc =>
    let s := m - cl
    let e := min (ls.length - 1) (m + cl)
    let currentEnd := cur.line_end - 1
    if s ≤ currentEnd + 1 then
      let newEnd := max currentEnd e
      fragLoop ls cl maxF rest
        { cur with
          line_end := newEnd + 1,
          lines := pySlice ls (cur.line_start - 1) (newEnd + 1),
          matched_line_numbers := cur.matched_line_numbers ++ [m + 1] }
        acc
    else
      let acc' := acc ++ [cur]
      if maxF ≤ acc'.length then acc'
      else fragLoop ls cl maxF rest (mkWindowFragment ls cl m) acc'

/-- The 0-based indices of lines matching any query term, in ascending
order (the matched-line collection pass of `extract_fragments`). -/
def matchedIdxs (ls : List String) (query_terms : List String) : List Nat :=
  (List.range ls.length).filter (fun i => lineHasMatch query_terms (ls.getD i ""))

/-- Embedding of `extract_fragments(content, query_terms, context_lines,
max_fragments)` from search.py. -/
def extract_fragments (content : String) (query_terms : List String)
    (context_lines max_fragments : Nat) : List Fragment :=
  if content = "" ∨ query_terms = [] then []
  else
    let ls := splitlines content
    if ls = [] then []
    else
      match matchedIdxs ls query_terms with
      | [] => []
      | m :: rest =>
        fragLoop ls context_lines max_fragments rest
          (mkWindowFragment ls context_lines m) []

/-! ### Specification-level view of fragment merging

`mergeWindows` is written from the specification's words, at the level of
line-index intervals: each matched line index yields the clamped window
`[m - cl, m + cl]`, which is merged into the open fragment exactly when
its start is at most the open fragment's end plus one.  The refinement
theorem below proves `extract_fragments` equal to its materialisation. -/

/-- A merged group of context windows: interval `[gstart, gend]` in
0-based line indices together with the matches folded into it. -/
structure WindowGroup where
  gstart : Nat
  gend : Nat
  gmatches : List Nat
deriving DecidableEq, Repr

/-- The clamped context window of a matched line index. -/
def specWindow (len cl m : Nat) : Nat × Nat :=
  (m - cl, min (len - 1) (m + cl))

/-- Interval-level window merging, following the specification: merge a
window into the open group iff its start is `≤` the group's end `+ 1`,
otherwise close the group and open a new one, stopping once `maxF`
groups are closed. -/
def mergeWindows (len cl maxF : Nat) :
    List Nat → WindowGroup → List WindowGroup → List WindowGroup
  | [], cur, acc => if acc.length < maxF then acc ++ [cur] else acc
  | m :: rest, cur, acc =>
    let w := specWindow len cl m
    if w.1 ≤ cur.gend + 1 then
      mergeWindows len cl maxF rest ⟨cur.gstart, max cur.gend w.2, cur.gmatches ++ [m]⟩ acc
    else
      let acc' := acc ++ [cur]
      if maxF ≤ acc'.length then acc'
      else mergeWindows len cl maxF rest ⟨w.1, w.2, [m]⟩ acc'

/-- Materialise an interval group as a `Fragment` over the given lines. -/
def materialize (ls : List String) (g : WindowGroup) : Fragment :=
  ⟨g.gstart + 1, g.gend + 1, pySlice ls g.gstart (g.gend + 1), g.gmatches.map (· + 1)⟩

/-- The specification-level fragment extraction. -/
def specFragments (content : String) (query_terms : List String)
    (cl maxF : Nat) : List Fragment :=
  if content = "" ∨ query_terms = [] then []
  else
    let ls := splitlines content
    if ls = [] then []
    else
      match matchedIdxs ls query_terms with
      | [] => []
      | m :: rest =>
        let w := specWindow ls.length cl m
        (mergeWindows ls.length cl maxF rest ⟨w.1, w.2, [m]⟩ []).map (materialize ls)

theorem mkWindowFragment_eq_materialize (ls : List String) (cl m : Nat) :
    mkWindowFragment ls cl m
      = materialize ls ⟨(specWindow ls.length cl m).1, (specWindow ls.length cl m).2, [m]⟩ := by
  rfl

theorem fragLoop_nil (ls : List String) (cl maxF : Nat) (cur : Fragment)
    (acc : List Fragment) :
    fragLoop ls cl maxF [] cur acc
      = if acc.length < maxF then acc ++ [cur] else acc := rfl

theorem fragLoop_cons (ls : List String) (cl maxF m : Nat) (rest : List Nat)
    (cur : Fragment) (acc : List Fragment) :
    fragLoop ls cl maxF (m :: rest) cur acc
      = if m - cl ≤ cur.line_end - 1 + 1 then
          fragLoop ls cl maxF rest
            { cur with
              line_end := max (cur.line_end - 1) (min (ls.length - 1) (m + cl)) + 1,
              lines := pySlice ls (cur.line_start - 1)
                (max (cur.line_end - 1) (min (ls.length - 1) (m + cl)) + 1),
              matched_line_numbers := cur.matched_line_numbers ++ [m + 1] } acc
        else
          if maxF ≤ (acc ++ [cur]).length then acc ++ [cur]
          else fragLoop ls cl maxF rest (mkWindowFragment ls cl m) (acc ++ [cur]) := rfl

theorem mergeWindows_nil (len cl maxF : Nat) (cur : WindowGroup)
    (acc : List WindowGroup) :
    mergeWindows len cl maxF [] cur acc
      = if acc.length < maxF then acc ++ [cur] else acc := rfl

theorem mergeWindows_cons (len cl maxF m : Nat) (rest : List Nat)
    (cur : WindowGroup) (acc : List WindowGroup) :
    mergeWindows len cl maxF (m :: rest) cur acc
      = if m - cl ≤ cur.gend + 1 then
          mergeWindows len cl maxF rest
            ⟨cur.gstart, max cur.gend (min (len - 1) (m + cl)), cur.gmatches ++ [m]⟩ acc
        else
          if maxF ≤ (acc ++ [cur]).length then acc ++ [cur]
          else mergeWindows len cl maxF rest ⟨m - cl, min (len - 1) (m + cl), [m]⟩ (acc ++ [cur]) := rfl

theorem materialize_merge (ls : List String) (g : WindowGroup) (m e : Nat) :
    ({ materialize ls g with
        line_end := max ((materialize ls g).line_end - 1) e + 1,
        lines := pySlice ls ((materialize ls g).line_start - 1) (max ((materialize ls g).line_end - 1) e + 1),
        matched_line_numbers := (materialize ls g).matched_line_numbers ++ [m + 1] } : Fragment)
      = materialize ls ⟨g.gstart, max g.gend e, g.gmatches ++ [m]⟩ := by
  simp [materialize]

theorem fragLoop_eq_mergeWindows (ls : List String) (cl maxF : Nat) :
    ∀ (ms : List Nat) (g : WindowGroup) (gs : List WindowGroup),
      fragLoop ls cl maxF ms (materialize ls g) (gs.map (materialize ls))
        = (mergeWindows ls.length cl maxF ms g gs).map (materialize ls) := by
  intro ms
  induction ms with
  | nil =>
    intro g gs
    rw [fragLoop_nil, mergeWindows_nil, List.length_map]
    split
    · simp
    · rfl
  | cons m rest ih =>
    intro g gs
    rw [fragLoop_cons, mergeWindows_cons]
    have hLineEnd : (materialize ls g).line_end - 1 = g.gend := rfl
    by_cases hc : m - cl ≤ g.gend + 1
    · rw [if_pos (by rw [hLineEnd]; exact hc), if_pos hc]
      rw [materialize_merge ls g m (min (ls.length - 1) (m + cl))]
      exact ih _ gs
    · rw [if_neg (by rw [hLineEnd]; exact hc), if_neg hc]
      have hAcc : gs.map (materialize ls) ++ [materialize ls g]
          = (gs ++ [g]).map (materialize ls) := by simp
      rw [hAcc, List.length_map]
      split
      · rfl
      · rw [mkWindowFragment_eq_materialize]
        exact ih _ (gs ++ [g])

/-- The code-level and specification-level extraction agree. -/
theorem extract_fragments_eq_specFragments (content : String)
    (query_terms : List String) (cl maxF : Nat) :
    extract_fragments content query_terms cl maxF
      = specFragments content query_terms cl maxF := by
  by_cases h1 : content = "" ∨ query_terms = []
  · simp [extract_fragments, specFragments, h1]
  · by_cases h2 : splitlines content = []
    · simp [extract_fragments, specFragments, h1, h2]
    · cases hm : matchedIdxs (splitlines content) query_terms with
      | nil => simp [extract_fragments, specFragments, h1, h2, hm]
      | cons m rest =>
        simp only [extract_fragments, specFragments, if_neg h1, if_neg h2, hm]
        rw [mkWindowFragment_eq_materialize]
        have h := fragLoop_eq_mergeWindows (splitlines content) cl maxF rest
          ⟨(specWindow (splitlines content).length cl m).1,
           (specWindow (splitlines content).length cl m).2, [m]⟩ []
        simpa using h

/-- Groups stand in ascending line order when each ends strictly before
the next starts. -/
def GOrd (a b : WindowGroup) : Prop := a.gend < b.gstart

theorem mergeWindows_chain (len cl maxF : Nat) :
    ∀ (ms : List Nat) (g : WindowGroup) (gs : List WindowGroup),
      List.Chain' GOrd (gs ++ [g]) →
      List.Chain' GOrd (mergeWindows len cl maxF ms g gs) := by
  intro ms
  induction ms with
  | nil =>
    intro g gs h
    rw [mergeWindows_nil]
    split
    · exact h
    · exact h.prefix (List.prefix_append gs [g])
  | cons m rest ih =>
    intro g gs h
    rw [mergeWindows_cons]
    split
    · apply ih
      obtain ⟨h1, _, h3⟩ := List.chain'_append.mp h
      refine List.chain'_append.mpr ⟨h1, List.chain'_singleton _, ?_⟩
      intro x hx y hy
      simp only [List.head?_cons, Option.mem_def, Option.some.injEq] at hy
      subst hy
      exact h3 x hx g (by simp)
    · split
      · exact h
      · rename_i hnotmerge _
        apply ih
        refine List.chain'_append.mpr ⟨h, List.chain'_singleton _, ?_⟩
        intro x hx y hy
        simp only [List.head?_cons, Option.mem_def, Option.some.injEq] at hy
        subst hy
        rw [List.getLast?_concat] at hx
        simp only [Option.mem_def, Option.some.injEq] at hx
        subst hx
        show g.gend < m - cl
        omega

theorem mergeWindows_flat_prefix (len cl maxF : Nat) :
    ∀ (ms : List Nat) (g : WindowGroup) (gs : List WindowGroup),
      ((mergeWindows len cl maxF ms g gs).flatMap (·.gmatches))
        <+: (gs.flatMap (·.gmatches) ++ g.gmatches ++ ms) := by
  intro ms
  induction ms with
  | nil =>
    intro g gs
    rw [mergeWindows_nil]
    split
    · simp
    · simp only [List.append_nil, List.append_assoc]
      exact (List.prefix_append _ _)
  | cons m rest ih =>
    intro g gs
    rw [mergeWindows_cons]
    split
    · have h := ih ⟨g.gstart, max g.gend (min (len - 1) (m + cl)), g.gmatches ++ [m]⟩ gs
      simpa [List.append_assoc] using h
    · split
      · simp only [List.flatMap_append, List.flatMap_cons, List.flatMap_nil,
          List.append_nil, ← List.append_assoc]
        exact List.prefix_append _ _
      · have h := ih ⟨m - cl, min (len - 1) (m + cl), [m]⟩ (gs ++ [g])
        simpa [List.append_assoc] using h

/-- C5: for every content, query-term list and context-line count, the
fragment loop computes per matched line (in ascending order) the clamped
window, merges it into the open fragment exactly when its start is at
most the current end plus one and otherwise opens a new fragment
(`extract_fragments` equals the interval-level specification); the
returned fragments are in ascending line order and the matched line
numbers they record are, in order, an initial run of all matched lines. -/
theorem extract_fragments_correct (content : String) (query_terms : List String)
    (context_lines max_fragments : Nat) :
    extract_fragments content query_terms context_lines max_fragments
      = specFragments content query_terms context_lines max_fragments
    ∧ List.Chain' (fun f f' => f.line_end < f'.line_start)
        (extract_fragments content query_terms context_lines max_fragments)
    ∧ ((extract_fragments content query_terms context_lines max_fragments).flatMap
          (·.matched_line_numbers))
        <+: ((matchedIdxs (splitlines content) query_terms).map (· + 1)) := by
  refine ⟨extract_fragments_eq_specFragments content query_terms context_lines max_fragments,
    ?_, ?_⟩
  all_goals rw [extract_fragments_eq_specFragments]
  all_goals unfold specFragments
  all_goals by_cases h1 : content = "" ∨ query_terms = []
  · simp [h1]
  case neg =>
    by_cases h2 : splitlines content = []
    · simp [h1, h2]
    · cases hm : matchedIdxs (splitlines content) query_terms with
      | nil => simp [h1, h2, hm]
      | cons m rest =>
        simp only [if_neg h1, if_neg h2, hm]
        rw [List.chain'_map]
        refine (mergeWindows_chain _ _ _ rest _ [] ?_).imp ?_
        · simpa [GOrd] using List.chain'_singleton _
        · intro a b hab
          have hab' : a.gend < b.gstart := hab
          simp only [materialize]
          omega
  · simp [h1, List.nil_prefix]
  case neg =>
    by_cases h2 : splitlines content = []
    · simp [h1, h2, List.nil_prefix]
    · cases hm : matchedIdxs (splitlines content) query_terms with
      | nil => simp [h1, h2, hm, List.nil_prefix]
      | cons m rest =>
        simp only [if_neg h1, if_neg h2, hm]
        have hflat : ((mergeWindows (splitlines content).length context_lines max_fragments
              rest ⟨(specWindow (splitlines content).length context_lines m).1,
                (specWindow (splitlines content).length context_lines m).2, [m]⟩ []).map
              (materialize (splitlines content))).flatMap (·.matched_line_numbers)
            = ((mergeWindows (splitlines content).length context_lines max_fragments
              rest ⟨(specWindow (splitlines content).length context_lines m).1,
                (specWindow (splitlines content).length context_lines m).2, [m]⟩ []).flatMap
              (·.gmatches)).map (· + 1) := by
          simp [List.flatMap_map, List.map_flatMap, materialize]
        rw [hflat]
        have h := mergeWindows_flat_prefix (splitlines content).length context_lines
          max_fragments rest ⟨(specWindow (splitlines content).length context_lines m).1,
            (specWindow (splitlines content).length context_lines m).2, [m]⟩ []
        simp only [List.flatMap_nil, List.nil_append] at h
        exact h.map (· + 1)

theorem fragLoop_length_le (ls : List String) (cl maxF : Nat) :
    ∀ (ms : List Nat) (cur : Fragment) (acc : List Fragment),
      acc.length < maxF → (fragLoop ls cl maxF ms cur acc).length ≤ maxF := by
  intro ms
  induction ms with
  | nil =>
    intro cur acc hlt
    rw [fragLoop_nil, if_pos hlt]
    simpa using hlt
  | cons m rest ih =>
    intro cur acc hlt
    rw [fragLoop_cons]
    split
    · exact ih _ acc hlt
    · split
      · simpa using hlt
      · rename_i hfull
        exact ih _ (acc ++ [cur]) (by simp at hfull ⊢; omega)

theorem fragLoop_ne_nil (ls : List String) (cl maxF : Nat) (hmax : 1 ≤ maxF) :
    ∀ (ms : List Nat) (cur : Fragment) (acc : List Fragment),
      fragLoop ls cl maxF ms cur acc ≠ [] := by
  intro ms
  induction ms with
  | nil =>
    intro cur acc
    rw [fragLoop_nil]
    split
    · simp
    · rename_i hge
      intro hnil
      rw [hnil] at hge
      simp at hge
      omega
  | cons m rest ih =>
    intro cur acc
    rw [fragLoop_cons]
    split
    · exact ih _ acc
    · split
      · simp
      · exact ih _ (acc ++ [cur])

theorem matchedIdxs_ne_nil {ls : List String} {query_terms : List String}
    (h : ∃ line ∈ ls, lineHasMatch query_terms line = true) :
    matchedIdxs ls query_terms ≠ [] := by
  obtain ⟨line, hmem, hline⟩ := h
  obtain ⟨i, hi⟩ := List.mem_iff_get.mp hmem
  intro hnil
  have : (i : Nat) ∈ matchedIdxs ls query_terms := by
    unfold matchedIdxs
    rw [List.mem_filter]
    refine ⟨List.mem_range.mpr i.isLt, ?_⟩
    rw [List.getD_eq_getElem?_getD, List.getElem?_eq_getElem i.isLt]
    simpa [← hi, List.get_eq_getElem] using hline
  rw [hnil] at this
  simp at this

/-- C6: for every content, query-term list and context-line count, and
every positive fragment cap, `extract_fragments` returns at most
`max_fragments` fragments, returns the empty list on empty content or an
empty term list, and returns at least one fragment whenever some line of
the content contains some query term case-insensitively. -/
theorem extract_fragments_cap (content : String) (query_terms : List String)
    (context_lines max_fragments : Nat) (hmax : 1 ≤ max_fragments) :
    (extract_fragments content query_terms context_lines max_fragments).length
        ≤ max_fragments
    ∧ ((content = "" ∨ query_terms = []) →
        extract_fragments content query_terms context_lines max_fragments = [])
    ∧ ((∃ line ∈ splitlines content, lineHasMatch query_terms line = true) →
        extract_fragments content query_terms context_lines max_fragments ≠ []) := by
  refine ⟨?_, ?_, ?_⟩
  · by_cases h1 : content = "" ∨ query_terms = []
    · simp [extract_fragments, h1]
    · by_cases h2 : splitlines content = []
      · simp [extract_fragments, h1, h2]
      · cases hm : matchedIdxs (splitlines content) query_terms with
        | nil => simp [extract_fragments, h1, h2, hm]
        | cons m rest =>
          simp only [extract_fragments, if_neg h1, if_neg h2, hm]
          exact fragLoop_length_le _ _ _ _ _ [] (by simpa using hmax)
  · intro h
    simp [extract_fragments, h]
  · intro h
    have hmi := matchedIdxs_ne_nil h
    obtain ⟨line, hmem, hline⟩ := h
    have hcontent : ¬(content = "" ∨ query_terms = []) := by
      rintro (rfl | rfl)
      · rw [show splitlines "" = [] from rfl] at hmem
        simp at hmem
      · simp [lineHasMatch] at hline
    have hls : splitlines content ≠ [] := by
      intro hnil
      rw [hnil] at hmem
      simp at hmem
    cases hm : matchedIdxs (splitlines content) query_terms with
    | nil => exact absurd hm hmi
    | cons m rest =>
      simp only [extract_fragments, if_neg hcontent, if_neg hls, hm]
      exact fragLoop_ne_nil _ _ _ hmax _ _ []

/-- C6 counterexample: with `max_fragments = 0` a matching line yields no
fragment at all, refuting the claim as stated for every cap. -/
theorem extract_fragments_zero_cap_counterexample :
    lineHasMatch ["a"] "a" = true
    ∧ extract_fragments "a" ["a"] 1 0 = [] := by
  constructor
  · decide
  · decide

theorem extract_fragments_cap_witness :
    1 ≤ 1
    ∧ ((extract_fragments "x" ["x"] 1 1).length ≤ 1
      ∧ (("x" = "" ∨ (["x"] : List String) = []) → extract_fragments "x" ["x"] 1 1 = [])
      ∧ ((∃ line ∈ splitlines "x", lineHasMatch ["x"] line = true) →
          extract_fragments "x" ["x"] 1 1 ≠ [])) :=
  ⟨le_refl 1, extract_fragments_cap "x" ["x"] 1 1 (le_refl 1)⟩

/-! ### Text chunking (`Chunk`, `TextChunker` in vector/chunking.py) -/

/-- A text chunk with provenance metadata (chunking.py `Chunk`; the
transient `embedding` field is not part of the persisted metadata and is
omitted).  The Python `section` field is called `section_` here. -/
structure Chunk where
  entry_id : String
  entry_type : EntryType
  chunk_index : Nat
  text : String
  page_start : Option Nat := none
  page_end : Option Nat := none
  section_ : Option String := none
  line_start : Nat := 1
  line_end : Nat := 1
deriving DecidableEq, Repr

/-- Chunker parameters (`chunk_size`, `overlap`, `min_chunk_size`). -/
structure ChunkerCfg where
  chunk_size : Nat
  overlap : Nat
  min_chunk_size : Nat
deriving DecidableEq, Repr

/-- The value of a digit run, for the `[PAGE:N]` marker. -/
def digitsToNat (ds : List Char) : Nat :=
  ds.foldl (fun a c => a * 10 + (c.toNat - 48)) 0

/-- Try to match the regex `\[PAGE:(\d+)\]` at the head of `l`; on success
return the page number and the length of the matched text. -/
def pageMarkerAt (l : List Char) : Option (Nat × Nat) :=
  match l with
  | '[' :: 'P' :: 'A' :: 'G' :: 'E' :: ':' :: rest =>
    let ds := rest.takeWhile Char.isDigit
    if ds.isEmpty then none
    else
      match rest.drop ds.length with
      | ']' :: _ => some (digitsToNat ds, 7 + ds.length)
      | _ => none
  | _ => none

/-- `PAGE_PATTERN.search(line)`: the page number of the first marker in
the line, if any. -/
def findPageMarker : List Char → Option Nat
  | [] => none
  | c :: rest =>
    match pageMarkerAt (c :: rest) with
    | some (n, _) => some n
    | none => findPageMarker rest

theorem pageMarkerAt_bounds {l : List Char} {n k : Nat}
    (h : pageMarkerAt l = some (n, k)) : 1 ≤ k ∧ k ≤ l.length := by
  unfold pageMarkerAt at h
  split at h
  case h_2 => exact absurd h (by simp)
  case h_1 rest =>
    simp only [] at h
    split at h
    · exact absurd h (by simp)
    · split at h
      case h_1 c cs heq =>
        simp only [Option.some.injEq, Prod.mk.injEq] at h
        have hlen : (rest.drop ((rest.takeWhile Char.isDigit).length)).length
            = cs.length + 1 := by rw [heq]; simp
        rw [List.length_drop] at hlen
        have hle : (rest.takeWhile Char.isDigit).length ≤ rest.length :=
          (List.takeWhile_sublist _).length_le
        simp only [List.length_cons]
        omega
      case h_2 => exact absurd h (by simp)

/-- `PAGE_PATTERN.sub("", line)`: the line with every page marker removed. -/
def removePageMarkers (l : List Char) : List Char :=
  match h : pageMarkerAt l with
  | some (_, k) => removePageMarkers (l.drop k)
  | none =>
    match l with
    | [] => []
    | c :: rest => c :: removePageMarkers rest
termination_by l.length
decreasing_by
  · have := pageMarkerAt_bounds h
    simp only [List.length_drop]
    omega
  · simp

/-- The regex `^##\s+(.+)$` applied to a line: when the line is a markdown
section header, the header text (Python applies `.strip()` to the captured
group on use, which makes the result the whitespace-trimmed remainder). -/
def sectionOf (l : List Char) : Option String :=
  match l with
  | '#' :: '#' :: c :: rest2 =>
    if c.isWhitespace ∧ rest2 ≠ [] then
      some (String.mk (stripChars ((c :: rest2).dropWhile Char.isWhitespace)))
    else none
  | _ => none

/-- One line annotated with the page/section in force (`_annotate_lines`). -/
structure AnnotatedLine where
  line_num : Nat
  text : String
  page : Option Nat
  sect : Option String
deriving DecidableEq, Repr

/-- Process one line of `_annotate_lines`: update the current page from a
`[PAGE:N]` marker (stripping the markers from the line), then the current
section from a `## Header` match on the resulting line. -/
def annotateLine (cur_page : Option Nat) (cur_sect : Option String)
    (line : String) : Option Nat × Option String × String :=
  let pl : Option Nat × String :=
    match findPageMarker line.toList with
    | some n => (some n, pyStrip (String.mk (removePageMarkers line.toList)))
    | none => (cur_page, line)
  let sect :=
    match sectionOf pl.2.toList with
    | some s => some s
    | none => cur_sect
  (pl.1, sect, pl.2)

/-- The line walk of `_annotate_lines`, carrying current page/section. -/
def annotateLinesGo (page : Option Nat) (sect : Option String) (n : Nat) :
    List String → List AnnotatedLine
  | [] => []
  | l :: rest =>
    let r := annotateLine page sect l
    ⟨n, r.2.2, r.1, r.2.1⟩ :: annotateLinesGo r.1 r.2.1 (n + 1) rest

/-- `_annotate_lines(lines)`. -/
def annotateLines (lines : List String) : List AnnotatedLine :=
  annotateLinesGo none none 1 lines

/-- One word of the flattened word stream with its metadata. -/
structure WordMeta where
  word : String
  line_num : Nat
  page : Option Nat
  sect : Option String
deriving DecidableEq, Repr

/-- The word-collection pass of `_create_chunks`: flatten non-blank lines
into words carrying line number, page and section. -/
def wordsOf (als : List AnnotatedLine) : List WordMeta :=
  als.flatMap fun al =>
    if pyStrip al.text = "" then []
    else (pySplitWhitespace al.text).map fun w => ⟨w, al.line_num, al.page, al.sect⟩

/-- Python `min` of a nonempty list (0 for the empty list, where Python
would raise; callers guard nonemptiness). -/
def listMinD : List Nat → Nat
  | [] => 0
  | x :: xs => xs.foldl Nat.min x

/-- Python `max` of a nonempty list (0 for the empty list). -/
def listMaxD : List Nat → Nat
  | [] => 0
  | x :: xs => xs.foldl Nat.max x

/-- Build one chunk from a word window (the `Chunk(...)` construction in
`_create_chunks`; `min`/`max` over the optional page values, the first
section seen, and the min/max line numbers spanned). -/
def mkChunk (eid : String) (et : EntryType) (cw : List WordMeta) (ci : Nat) : Chunk :=
  let pages := cw.filterMap (·.page)
  let sections := cw.filterMap (·.sect)
  let lineNums := cw.map (·.line_num)
  { entry_id := eid
    entry_type := et
    chunk_index := ci
    text := String.intercalate " " (cw.map (·.word))
    page_start := if pages = [] then none else some (listMinD pages)
    page_end := if pages = [] then none else some (listMaxD pages)
    section_ := sections.head?
    line_start := listMinD lineNums
    line_end := listMaxD lineNums }

/-- The sliding-window loop of `_create_chunks`, with explicit fuel so
that non-termination of the embedded loop would be observable as `none`.
Arguments after `words`: remaining fuel, `start_idx`, `chunk_index`, and
the chunks built so far.  A `ValueError` arises exactly where Python's
`min(line_nums)` is applied to an empty word window. -/
def createChunksLoop (cfg : ChunkerCfg) (eid : String) (et : EntryType)
    (words : List WordMeta) :
    Nat → Nat → Nat → List Chunk → Option (Except PyErr (List Chunk))
  | 0, _, _, _ => none
  | fuel + 1, start, ci, acc =>
    if start < words.length then
      let endIdx := min (start + cfg.chunk_size) words.length
      let cw := (words.drop start).take (endIdx - start)
      if cw.length < cfg.min_chunk_size ∧ acc ≠ [] then some (.ok acc)
      else if cw = [] then some (.error .valueError)
      else
        let acc' := acc ++ [mkChunk eid et cw ci]
        let next : Int := (start : Int) + cfg.chunk_size - cfg.overlap
        if next ≤ 0 then some (.ok acc')
        else createChunksLoop cfg eid et words fuel next.toNat (ci + 1) acc'
    else some (.ok acc)

/-- The word stream `chunk_text` derives from a text. -/
def wordsOfText (text : String) : List WordMeta :=
  wordsOf (annotateLines (splitlines text))

/-- Embedding of `TextChunker.chunk_text(text, entry_id, entry_type)`:
`.ok chunks` models a normal return, `.error .valueError` a raised
exception.  The loop is run with fuel `|words| + 2`, which the
termination theorem below shows is never exhausted. -/
def chunk_text (cfg : ChunkerCfg) (eid : String) (et : EntryType)
    (text : String) : Except PyErr (List Chunk) :=
  if text = "" ∨ pyStrip text = "" then .ok []
  else
    let words := wordsOfText text
    if words = [] then .ok []
    else (createChunksLoop cfg eid et words (words.length + 2) 0 0 []).getD
      (.error .valueError)

/-! ### Termination and invariants of the chunking loop (C7, C8) -/

theorem createChunksLoop_isSome_of_lt (cfg : ChunkerCfg) (eid : String)
    (et : EntryType) (words : List WordMeta)
    (hstep : cfg.overlap < cfg.chunk_size) :
    ∀ (fuel start ci : Nat) (acc : List Chunk),
      words.length - start < fuel →
      (createChunksLoop cfg eid et words fuel start ci acc).isSome = true := by
  intro fuel
  induction fuel with
  | zero => intro start ci acc h; omega
  | succ fuel ih =>
    intro start ci acc h
    simp only [createChunksLoop]
    split
    · rename_i hstart
      split
      · simp
      · split
        · simp
        · split
          · simp
          · rename_i hnext
            apply ih
            omega
    · simp

theorem createChunksLoop_isSome_start_zero (cfg : ChunkerCfg) (eid : String)
    (et : EntryType) (words : List WordMeta)
    (hstep : cfg.chunk_size ≤ cfg.overlap) (fuel ci : Nat) (acc : List Chunk)
    (hfuel : 1 ≤ fuel) :
    (createChunksLoop cfg eid et words fuel 0 ci acc).isSome = true := by
  cases fuel with
  | zero => omega
  | succ fuel =>
    simp only [createChunksLoop]
    split
    · split
      · simp
      · split
        · simp
        · split
          · simp
          · rename_i hnext
            exfalso
            omega
    · simp

theorem createChunksLoop_ok (cfg : ChunkerCfg) (eid : String) (et : EntryType)
    (words : List WordMeta) (hcs : 1 ≤ cfg.chunk_size) :
    ∀ (fuel start ci : Nat) (acc : List Chunk) (r : Except PyErr (List Chunk)),
      createChunksLoop cfg eid et words fuel start ci acc = some r →
      ∃ l, r = Except.ok l := by
  intro fuel
  induction fuel with
  | zero => intro start ci acc r h; simp [createChunksLoop] at h
  | succ fuel ih =>
    intro start ci acc r h
    simp only [createChunksLoop] at h
    split at h
    · split at h
      · exact ⟨_, (Option.some.inj h).symm⟩
      · split at h
        · rename_i hstart _ hempt
          exfalso
          apply_fun List.length at hempt
          simp only [List.length_take, List.length_drop, List.length_nil] at hempt
          omega
        · split at h
          · exact ⟨_, (Option.some.inj h).symm⟩
          · exact ih _ _ _ _ h
    · exact ⟨_, (Option.some.inj h).symm⟩

/-- C7: for every chunker configuration — including misconfigurations
where the advance step `chunk_size - overlap` is non-positive — and every
input text, the window loop of `chunk_text` terminates within
`|words| + 2` iterations; and whenever `chunk_size ≥ 1` the call returns
a finite chunk list (with `chunk_size = 0` it instead terminates by
raising `ValueError`, see the counterexample). -/
theorem chunk_text_terminates (cfg : ChunkerCfg) (eid : String)
    (et : EntryType) (text : String) :
    (createChunksLoop cfg eid et (wordsOfText text)
        ((wordsOfText text).length + 2) 0 0 []).isSome = true
    ∧ (1 ≤ cfg.chunk_size →
        ∃ out, chunk_text cfg eid et text = Except.ok out) := by
  have hterm : (createChunksLoop cfg eid et (wordsOfText text)
      ((wordsOfText text).length + 2) 0 0 []).isSome = true := by
    by_cases hstep : cfg.overlap < cfg.chunk_size
    · exact createChunksLoop_isSome_of_lt cfg eid et _ hstep _ 0 0 [] (by omega)
    · exact createChunksLoop_isSome_start_zero cfg eid et _ (by omega) _ 0 [] (by omega)
  refine ⟨hterm, ?_⟩
  intro hcs
  by_cases h1 : text = "" ∨ pyStrip text = ""
  · exact ⟨[], by simp [chunk_text, h1]⟩
  · by_cases h2 : wordsOfText text = []
    · exact ⟨[], by simp [chunk_text, h1, h2]⟩
    · obtain ⟨r, hr⟩ := Option.isSome_iff_exists.mp hterm
      obtain ⟨l, rfl⟩ := createChunksLoop_ok cfg eid et _ hcs _ _ _ _ r hr
      refine ⟨l, ?_⟩
      simp only [chunk_text, if_neg h1, if_neg h2, hr, Option.getD_some]

/-- C7 counterexample: with `chunk_size = 0` and a nonempty text the
loop's first window is empty and Python's `min(line_nums)` raises
`ValueError`, so `chunk_text` does not return a list of chunks. -/
theorem chunk_text_zero_size_counterexample :
    chunk_text ⟨0, 50, 100⟩ "e1" EntryType.paper "a b"
      = Except.error PyErr.valueError := by rfl

theorem chunk_text_terminates_witness :
    (createChunksLoop ⟨300, 50, 100⟩ "e1" EntryType.paper
        (wordsOfText "hello world")
        ((wordsOfText "hello world").length + 2) 0 0 []).isSome = true
    ∧ (1 ≤ (300 : Nat)
      ∧ ∃ out, chunk_text ⟨300, 50, 100⟩ "e1" EntryType.paper "hello world"
          = Except.ok out) :=
  ⟨(chunk_text_terminates ⟨300, 50, 100⟩ "e1" EntryType.paper "hello world").1,
    by decide,
    (chunk_text_terminates ⟨300, 50, 100⟩ "e1" EntryType.paper "hello world").2
      (by decide)⟩

theorem foldl_min_le_init : ∀ (xs : List Nat) (x : Nat), xs.foldl Nat.min x ≤ x := by
  intro xs
  induction xs with
  | nil => intro x; exact le_refl x
  | cons y ys ih =>
    intro x
    calc (y :: ys).foldl Nat.min x = ys.foldl Nat.min (Nat.min x y) := rfl
    _ ≤ Nat.min x y := ih _
    _ ≤ x := Nat.min_le_left _ _

theorem init_le_foldl_max : ∀ (xs : List Nat) (x : Nat), x ≤ xs.foldl Nat.max x := by
  intro xs
  induction xs with
  | nil => intro x; exact le_refl x
  | cons y ys ih =>
    intro x
    calc x ≤ Nat.max x y := Nat.le_max_left _ _
    _ ≤ ys.foldl Nat.max (Nat.max x y) := ih _
    _ = (y :: ys).foldl Nat.max x := rfl

theorem listMinD_le_listMaxD {l : List Nat} (h : l ≠ []) :
    listMinD l ≤ listMaxD l := by
  cases l with
  | nil => exact absurd rfl h
  | cons x xs =>
    calc listMinD (x :: xs) = xs.foldl Nat.min x := rfl
    _ ≤ x := foldl_min_le_init xs x
    _ ≤ xs.foldl Nat.max x := init_le_foldl_max xs x
    _ = listMaxD (x :: xs) := rfl

/-- The per-chunk part of the C8 invariant. -/
def chunkOk (c : Chunk) : Prop :=
  c.line_start ≤ c.line_end
  ∧ (c.page_start.isSome →
      ∃ a b, c.page_start = some a ∧ c.page_end = some b ∧ a ≤ b)

theorem mkChunk_ok (eid : String) (et : EntryType) (cw : List WordMeta)
    (ci : Nat) (hcw : cw ≠ []) : chunkOk (mkChunk eid et cw ci) := by
  constructor
  · show listMinD (cw.map (·.line_num)) ≤ listMaxD (cw.map (·.line_num))
    exact listMinD_le_listMaxD (by simpa using hcw)
  · intro hsome
    by_cases hp : cw.filterMap (·.page) = []
    · exfalso
      simp only [mkChunk, hp] at hsome
      simp at hsome
    · refine ⟨listMinD (cw.filterMap (·.page)), listMaxD (cw.filterMap (·.page)), ?_, ?_, ?_⟩
      · simp [mkChunk, hp]
      · simp [mkChunk, hp]
      · exact listMinD_le_listMaxD hp

theorem mkChunk_index (eid : String) (et : EntryType) (cw : List WordMeta)
    (ci : Nat) : (mkChunk eid et cw ci).chunk_index = ci := rfl

theorem createChunksLoop_invariant (cfg : ChunkerCfg) (eid : String)
    (et : EntryType) (words : List WordMeta) :
    ∀ (fuel start ci : Nat) (acc : List Chunk) (out : List Chunk),
      createChunksLoop cfg eid et words fuel start ci acc = some (Except.ok out) →
      acc.map Chunk.chunk_index = List.range ci →
      ci = acc.length →
      (∀ c ∈ acc, chunkOk c) →
      (out.map Chunk.chunk_index = List.range out.length ∧ ∀ c ∈ out, chunkOk c) := by
  intro fuel
  induction fuel with
  | zero => intro start ci acc out h _ _ _; simp [createChunksLoop] at h
  | succ fuel ih =>
    intro start ci acc out h hidx hlen hok
    simp only [createChunksLoop] at h
    split at h
    · split at h
      · have hout : acc = out := by
          have := Option.some.inj h
          exact Except.ok.inj this
        subst hout
        exact ⟨by rw [hidx, hlen], hok⟩
      · split at h
        · exfalso
          have := Option.some.inj h
          exact Except.noConfusion this
        · rename_i hcw
          split at h
          · have hout := Except.ok.inj (Option.some.inj h)
            subst hout
            constructor
            · rw [List.map_append, hidx, List.length_append]
              simp [mkChunk_index, List.range_succ, hlen]
            · intro c hc
              rcases List.mem_append.mp hc with hc | hc
              · exact hok c hc
              · rw [List.mem_singleton.mp hc]
                exact mkChunk_ok eid et _ ci hcw
          · refine ih _ _ _ _ h ?_ ?_ ?_
            · rw [List.map_append, hidx]
              simp [mkChunk_index, List.range_succ]
            · simp [hlen]
            · intro c hc
              rcases List.mem_append.mp hc with hc | hc
              · exact hok c hc
              · rw [List.mem_singleton.mp hc]
                exact mkChunk_ok eid et _ ci hcw
    · have hout : acc = out := by
        have := Option.some.inj h
        exact Except.ok.inj this
      subst hout
      exact ⟨by rw [hidx, hlen], hok⟩

/-- C8: every chunk list returned by `chunk_text` has `chunk_index`
values exactly `0..N-1` in list order, every chunk has
`line_start ≤ line_end`, and whenever `page_start` is set `page_end` is
set as well with `page_start ≤ page_end`. -/
theorem chunk_text_invariants (cfg : ChunkerCfg) (eid : String)
    (et : EntryType) (text : String) (out : List Chunk)
    (h : chunk_text cfg eid et text = Except.ok out) :
    out.map Chunk.chunk_index = List.range out.length
    ∧ ∀ c ∈ out, c.line_start ≤ c.line_end
        ∧ (c.page_start.isSome →
            ∃ a b, c.page_start = some a ∧ c.page_end = some b ∧ a ≤ b) := by
  by_cases h1 : text = "" ∨ pyStrip text = ""
  · simp only [chunk_text, if_pos h1] at h
    cases Except.ok.inj h
    simp
  · by_cases h2 : wordsOfText text = []
    · simp only [chunk_text, if_neg h1, if_pos h2] at h
      cases Except.ok.inj h
      simp
    · simp only [chunk_text, if_neg h1, if_neg h2] at h
      cases hl : createChunksLoop cfg eid et (wordsOfText text)
          ((wordsOfText text).length + 2) 0 0 [] with
      | none =>
        rw [hl] at h
        exact absurd h (by simp)
      | some r =>
        rw [hl, Option.getD_some] at h
        subst h
        exact createChunksLoop_invariant cfg eid et _ _ _ _ _ _ hl rfl rfl
          (by intro c hc; simp at hc)

/-- The concrete chunk `chunk_text` produces for the witness input. -/
def helloChunk : Chunk :=
  ⟨"e1", EntryType.paper, 0, "hello world", none, none, none, 1, 1⟩

theorem chunk_text_invariants_witness :
    [helloChunk].map Chunk.chunk_index = List.range [helloChunk].length
    ∧ ∀ c ∈ [helloChunk],
        c.line_start ≤ c.line_end
        ∧ (c.page_start.isSome →
            ∃ a b, c.page_start = some a ∧ c.page_end = some b ∧ a ≤ b) :=
  chunk_text_invariants ⟨300, 50, 100⟩ "e1" EntryType.paper "hello world"
    [helloChunk] (by rfl)

/-! ### CharacterLimitChunker (spec-modelled)

`CharacterLimitChunker` is imported from `vector/chunking.py` by
`vector/__init__.py` and used by `VectorSearcher._get_char_limit_chunker`
and `rebuild_index`, but its definition is not among the provided
sources; the definitions below follow spec §4.2. -/

/-- Modelled from the spec: split a character list into pieces of at most
`m` characters, cutting at the budget boundary (`CharacterLimitChunker`'s
splitting of an over-budget chunk text; its source is absent from src). -/
def chunksOfChars (m : Nat) (l : List Char) : List (List Char) :=
  if h : l.length ≤ m ∨ m = 0 then [l]
  else l.take m :: chunksOfChars m (l.drop m)
termination_by l.length
decreasing_by
  simp only [List.length_drop]
  omega

/-- Modelled from the spec: a chunk whose text is within the `max_chars`
budget passes through unchanged; an over-budget chunk is split into
sub-chunks at the budget boundary, each preserving the parent's
`entry_id`, `entry_type`, `page_start`/`page_end` and `section` metadata
(`CharacterLimitChunker`'s per-chunk step; its source is absent from src). -/
def splitChunkAtBudget (maxChars : Nat) (c : Chunk) : List Chunk :=
  if c.text.length ≤ maxChars then [c]
  else (chunksOfChars maxChars c.text.toList).map fun piece =>
    { c with text := String.mk piece }

/-- Renumber chunks so that, per entry, `chunk_index` counts the chunks
of that entry seen so far in list order. -/
def reindexGo (prev : List Chunk) : List Chunk → List Chunk
  | [] => []
  | c :: rest =>
    { c with chunk_index := (prev.filter (fun p => p.entry_id = c.entry_id)).length }
      :: reindexGo (prev ++ [c]) rest

/-- Modelled from the spec: `CharacterLimitChunker.process_chunks` (its
source is absent from src) — split every over-budget chunk at the budget
boundary and recompute `chunk_index` across the whole resulting list so
indices remain contiguous per entry. -/
def process_chunks (maxChars : Nat) (cs : List Chunk) : List Chunk :=
  reindexGo [] (cs.flatMap (splitChunkAtBudget maxChars))

/-- A chunk with its index forgotten, for stating that renumbering
changes nothing else. -/
def clearIndex (c : Chunk) : Chunk := { c with chunk_index := 0 }

theorem chunksOfChars_flatten (m : Nat) :
    ∀ (n : Nat) (l : List Char), l.length ≤ n →
      (chunksOfChars m l).flatten = l := by
  intro n
  induction n with
  | zero =>
    intro l h
    have hl : l = [] := List.length_eq_zero.mp (Nat.le_zero.mp h)
    subst hl
    rw [chunksOfChars, dif_pos (Or.inl (by simp))]
    simp
  | succ n ih =>
    intro l h
    by_cases hc : l.length ≤ m ∨ m = 0
    · rw [chunksOfChars, dif_pos hc]
      simp
    · rw [chunksOfChars, dif_neg hc]
      rw [List.flatten_cons, ih (l.drop m) (by simp only [List.length_drop]; omega)]
      exact List.take_append_drop m l

theorem chunksOfChars_piece_le (m : Nat) (hm : 1 ≤ m) :
    ∀ (n : Nat) (l : List Char), l.length ≤ n →
      ∀ p ∈ chunksOfChars m l, p.length ≤ m := by
  intro n
  induction n with
  | zero =>
    intro l h p hp
    have hl : l = [] := List.length_eq_zero.mp (Nat.le_zero.mp h)
    subst hl
    rw [chunksOfChars, dif_pos (Or.inl (by simp))] at hp
    simp at hp
    simp [hp]
  | succ n ih =>
    intro l h p hp
    by_cases hc : l.length ≤ m ∨ m = 0
    · rw [chunksOfChars, dif_pos hc] at hp
      simp at hp
      subst hp
      omega
    · rw [chunksOfChars, dif_neg hc] at hp
      rcases List.mem_cons.mp hp with hp | hp
      · subst hp
        simp
      · exact ih (l.drop m) (by simp only [List.length_drop]; omega) p hp

theorem splitChunkAtBudget_within (maxChars : Nat) (c : Chunk)
    (h : c.text.length ≤ maxChars) : splitChunkAtBudget maxChars c = [c] := by
  rw [splitChunkAtBudget, if_pos h]

theorem splitChunkAtBudget_text (maxChars : Nat) (c : Chunk) :
    ((splitChunkAtBudget maxChars c).map (fun p => p.text.toList)).flatten
      = c.text.toList := by
  rw [splitChunkAtBudget]
  split
  · simp
  · rw [List.map_map]
    have : ((fun p => Chunk.text p |>.toList) ∘ fun piece =>
        { c with text := String.mk piece }) = fun piece : List Char => piece := by
      funext piece
      rfl
    rw [this]
    simpa using chunksOfChars_flatten maxChars c.text.toList.length c.text.toList le_rfl

theorem splitChunkAtBudget_pieces (maxChars : Nat) (c : Chunk)
    (hm : 1 ≤ maxChars) :
    ∀ p ∈ splitChunkAtBudget maxChars c,
      p.text.length ≤ maxChars
      ∧ p.entry_id = c.entry_id ∧ p.entry_type = c.entry_type
      ∧ p.page_start = c.page_start ∧ p.page_end = c.page_end
      ∧ p.section_ = c.section_ := by
  intro p hp
  rw [splitChunkAtBudget] at hp
  split at hp
  · rename_i hle
    rw [List.mem_singleton.mp hp]
    exact ⟨hle, rfl, rfl, rfl, rfl, rfl⟩
  · obtain ⟨piece, hpiece, rfl⟩ := List.mem_map.mp hp
    refine ⟨?_, rfl, rfl, rfl, rfl, rfl⟩
    show (String.mk piece).length ≤ maxChars
    have := chunksOfChars_piece_le maxChars hm c.text.toList.length
      c.text.toList le_rfl piece hpiece
    simpa using this

theorem reindexGo_clearIndex :
    ∀ (rest prev : List Chunk),
      (reindexGo prev rest).map clearIndex = rest.map clearIndex := by
  intro rest
  induction rest with
  | nil => intro prev; rfl
  | cons c cs ih =>
    intro prev
    simp only [reindexGo, List.map_cons, ih]
    rfl

theorem reindexGo_entry_indices (e : String) :
    ∀ (rest prev : List Chunk),
      ((reindexGo prev rest).filter (fun c => c.entry_id = e)).map Chunk.chunk_index
        = List.range' ((prev.filter (fun p => p.entry_id = e)).length)
            ((rest.filter (fun c => c.entry_id = e)).length) := by
  intro rest
  induction rest with
  | nil => intro prev; rfl
  | cons c cs ih =>
    intro prev
    by_cases hc : c.entry_id = e
    · have hstep : ((prev ++ [c]).filter (fun p => p.entry_id = e)).length
          = (prev.filter (fun p => p.entry_id = e)).length + 1 := by
        simp [List.filter_append, hc]
      have hpred : (prev.filter (fun p => p.entry_id = c.entry_id))
          = (prev.filter (fun p => p.entry_id = e)) := by rw [hc]
      simp only [reindexGo, List.filter_cons]
      rw [if_pos (by simpa using hc), if_pos (by simpa using hc)]
      simp only [List.map_cons, ih (prev ++ [c]), hstep, hpred]
      simp [List.range'_succ]
    · simp only [reindexGo, List.filter_cons]
      rw [if_neg (by simpa using hc), if_neg (by simpa using hc)]
      have hstep : ((prev ++ [c]).filter (fun p => p.entry_id = e)).length
          = (prev.filter (fun p => p.entry_id = e)).length := by
        simp [List.filter_append, hc]
      rw [ih (prev ++ [c]), hstep]

/-- C3: spec-modelled `CharacterLimitChunker.process_chunks` — the
renumbering changes nothing but `chunk_index`; a chunk within the
`max_chars` budget passes through unchanged; every over-budget chunk is
split at the budget boundary into sub-chunks whose texts concatenate to
the parent text, each within budget and preserving the parent's
`entry_id`/`entry_type`/page/section metadata; and in the result the
`chunk_index` values of each entry are contiguous from zero in list
order. -/
theorem process_chunks_correct (maxChars : Nat) (cs : List Chunk)
    (hm : 1 ≤ maxChars) :
    ((process_chunks maxChars cs).map clearIndex
        = (cs.flatMap (splitChunkAtBudget maxChars)).map clearIndex)
    ∧ (∀ c ∈ cs, c.text.length ≤ maxChars → splitChunkAtBudget maxChars c = [c])
    ∧ (∀ c ∈ cs,
        ((splitChunkAtBudget maxChars c).map (fun p => p.text.toList)).flatten
            = c.text.toList
        ∧ ∀ p ∈ splitChunkAtBudget maxChars c,
            p.text.length ≤ maxChars
            ∧ p.entry_id = c.entry_id ∧ p.entry_type = c.entry_type
            ∧ p.page_start = c.page_start ∧ p.page_end = c.page_end
            ∧ p.section_ = c.section_)
    ∧ ∀ e, ((process_chunks maxChars cs).filter
          (fun c => c.entry_id = e)).map Chunk.chunk_index
        = List.range (((process_chunks maxChars cs).filter
            (fun c => c.entry_id = e)).length) := by
  refine ⟨reindexGo_clearIndex _ [], ?_, ?_, ?_⟩
  · intro c _ h
    exact splitChunkAtBudget_within maxChars c h
  · intro c _
    exact ⟨splitChunkAtBudget_text maxChars c, splitChunkAtBudget_pieces maxChars c hm⟩
  · intro e
    have h := reindexGo_entry_indices e (cs.flatMap (splitChunkAtBudget maxChars)) []
    rw [show process_chunks maxChars cs
        = reindexGo [] (cs.flatMap (splitChunkAtBudget maxChars)) from rfl, h]
    have hlen : ((reindexGo [] (cs.flatMap (splitChunkAtBudget maxChars))).filter
        (fun c => c.entry_id = e)).length
        = (((cs.flatMap (splitChunkAtBudget maxChars))).filter
            (fun c => c.entry_id = e)).length := by
      have := congrArg List.length (reindexGo_entry_indices e
        (cs.flatMap (splitChunkAtBudget maxChars)) [])
      simpa using this
    rw [hlen]
    simp [List.range_eq_range']

theorem process_chunks_correct_witness :
    1 ≤ 5
    ∧ (((process_chunks 5 [⟨"x", EntryType.paper, 0, "abcdefgh", none, none,
          none, 1, 1⟩]).map clearIndex
        = (([⟨"x", EntryType.paper, 0, "abcdefgh", none, none, none, 1,
            1⟩] : List Chunk).flatMap (splitChunkAtBudget 5)).map clearIndex)
      ∧ (∀ c ∈ ([⟨"x", EntryType.paper, 0, "abcdefgh", none, none, none, 1,
            1⟩] : List Chunk), c.text.length ≤ 5 → splitChunkAtBudget 5 c = [c])
      ∧ (∀ c ∈ ([⟨"x", EntryType.paper, 0, "abcdefgh", none, none, none, 1,
            1⟩] : List Chunk),
          ((splitChunkAtBudget 5 c).map (fun p => p.text.toList)).flatten
              = c.text.toList
          ∧ ∀ p ∈ splitChunkAtBudget 5 c,
              p.text.length ≤ 5
              ∧ p.entry_id = c.entry_id ∧ p.entry_type = c.entry_type
              ∧ p.page_start = c.page_start ∧ p.page_end = c.page_end
              ∧ p.section_ = c.section_)
      ∧ ∀ e, ((process_chunks 5 [⟨"x", EntryType.paper, 0, "abcdefgh", none,
            none, none, 1, 1⟩]).filter
              (fun c => c.entry_id = e)).map Chunk.chunk_index
          = List.range (((process_chunks 5 [⟨"x", EntryType.paper, 0,
              "abcdefgh", none, none, none, 1, 1⟩]).filter
                (fun c => c.entry_id = e)).length)) :=
  ⟨by decide, process_chunks_correct 5 _ (by decide)⟩

/-! ### Vector search aggregation (`VectorSearcher.search` in vector/search.py)

The FAISS retrieval itself is the injected vector-index capability
(spec §6); it is modelled as an oracle `indexSearch k` returning at most
`k` pairs of row index and similarity.  Similarity scores are modelled
by rationals, which preserves every comparison the code performs. -/

/-- A search result as far as the aggregation logic determines it
(resolved record objects are external; `content` falls back to the
winning chunk's text when the entry cannot be resolved). -/
structure SearchResult where
  entry_id : String
  score : ℚ
  content : String
  entry_type : EntryType
  fragments : List Fragment
deriving DecidableEq, Repr

/-- `search_k = min(top_k * 10, len(chunks))` — the over-fetch size. -/
def search_k (top_k : Nat) (chunks : List Chunk) : Nat :=
  min (top_k * 10) chunks.length

/-- The `entry_id` / `entry_types` filters applied to a retrieved chunk
before aggregation (Python truthiness: an empty string or empty list
disables the filter). -/
def passesFilters (entry_id? : Option String)
    (entry_types? : Option (List EntryType)) (c : Chunk) : Bool :=
  (match entry_id? with
    | none => true
    | some e => if e = "" then true else c.entry_id = e)
  && (match entry_types? with
      | none => true
      | some ets => if ets = [] then true else ets.contains c.entry_type)

/-- The retrieved (chunk, similarity) pairs surviving the index-bounds
check and the filters, in retrieval order (the loop over `indices[0]`). -/
def candidates (chunks : List Chunk) (retrieved : List (Int × ℚ))
    (entry_id? : Option String) (entry_types? : Option (List EntryType)) :
    List (Chunk × ℚ) :=
  retrieved.filterMap fun (p : Int × ℚ) =>
    if p.1 < 0 then none
    else
      match chunks.get? p.1.toNat with
      | none => none
      | some c =>
        if passesFilters entry_id? entry_types? c then some (c, p.2) else none

/-- The Python dict update `entry_scores[entry_id] = (score, chunk)`
guarded by `score > entry_scores[entry_id][0]`: insertion order kept,
value replaced in place only on a strictly higher score. -/
def upsertBest : List (String × ℚ × Chunk) → String → ℚ → Chunk →
    List (String × ℚ × Chunk)
  | [], k, s, c => [(k, s, c)]
  | (k0, s0, c0) :: rest, k, s, c =>
    if k0 = k then
      if s0 < s then (k0, s, c) :: rest else (k0, s0, c0) :: rest
    else (k0, s0, c0) :: upsertBest rest k s c

/-- The aggregation loop: best retrieved chunk per distinct entry id. -/
def aggregateBest (cands : List (Chunk × ℚ)) : List (String × ℚ × Chunk) :=
  cands.foldl (fun acc p => upsertBest acc p.1.entry_id p.2 p.1) []

/-- The similarities of all candidates belonging to one entry. -/
def scoresFor (cands : List (Chunk × ℚ)) (k : String) : List ℚ :=
  cands.filterMap fun p => if p.1.entry_id = k then some p.2 else none

/-- `s` is the best candidate similarity of entry `k`. -/
def bestPred (cands : List (Chunk × ℚ)) (k : String) (s : ℚ) : Prop :=
  s ∈ scoresFor cands k ∧ ∀ s' ∈ scoresFor cands k, s' ≤ s

theorem upsertBest_cons_eq (k : String) (s : ℚ) (c : Chunk) (k0 : String)
    (s0 : ℚ) (c0 : Chunk) (tl : List (String × ℚ × Chunk)) :
    upsertBest ((k0, s0, c0) :: tl) k s c
      = if k0 = k then
          (if s0 < s then (k0, s, c) :: tl else (k0, s0, c0) :: tl)
        else (k0, s0, c0) :: upsertBest tl k s c := rfl

theorem upsertBest_keys (k : String) (s : ℚ) (c : Chunk) :
    ∀ acc : List (String × ℚ × Chunk),
      (upsertBest acc k s c).map (fun t => t.1)
        = if k ∈ acc.map (fun t => t.1) then acc.map (fun t => t.1)
          else acc.map (fun t => t.1) ++ [k] := by
  intro acc
  induction acc with
  | nil => simp [upsertBest]
  | cons hd tl ih =>
    obtain ⟨k0, s0, c0⟩ := hd
    rw [upsertBest_cons_eq]
    by_cases hk : k0 = k
    · subst hk
      have hmem : k0 ∈ ((k0, s0, c0) :: tl).map (fun t => t.1) := by simp
      rw [if_pos rfl, if_pos hmem]
      by_cases hs : s0 < s <;> simp [hs]
    · rw [if_neg hk, List.map_cons, ih, List.map_cons]
      have hne : ¬(k = k0) := fun h => hk h.symm
      by_cases hmem : k ∈ tl.map (fun t => t.1)
      · rw [if_pos hmem, if_pos (by simp [hmem])]
      · rw [if_neg hmem, if_neg (by simp [hne, hmem])]
        simp

theorem upsertBest_mem_ne (k : String) (s : ℚ) (c : Chunk) :
    ∀ (acc : List (String × ℚ × Chunk)) (x : String × ℚ × Chunk), x.1 ≠ k →
      (x ∈ upsertBest acc k s c ↔ x ∈ acc) := by
  intro acc
  induction acc with
  | nil =>
    intro x hx
    simp only [upsertBest, List.mem_singleton, List.not_mem_nil, iff_false]
    intro h
    exact hx (by rw [h])
  | cons hd tl ih =>
    intro x hx
    obtain ⟨k0, s0, c0⟩ := hd
    rw [upsertBest_cons_eq]
    by_cases hk : k0 = k
    · subst hk
      have h1 : x ≠ (k0, s, c) := fun h => hx (by rw [h])
      have h2 : x ≠ (k0, s0, c0) := fun h => hx (by rw [h])
      rw [if_pos rfl]
      by_cases hs : s0 < s
      · rw [if_pos hs]
        simp [List.mem_cons, h1, h2]
      · rw [if_neg hs]
    · rw [if_neg hk]
      simp only [List.mem_cons, ih x hx]

theorem upsertBest_mem_key (k : String) (s : ℚ) (c : Chunk) :
    ∀ acc : List (String × ℚ × Chunk),
      ((acc.map (fun t => t.1)).Nodup) →
      ∀ s' c', (k, s', c') ∈ upsertBest acc k s c →
        ((s' = s ∧ c' = c ∧ ∀ s0 c0, (k, s0, c0) ∈ acc → s0 < s)
        ∨ ((k, s', c') ∈ acc ∧ s ≤ s')) := by
  intro acc
  induction acc with
  | nil =>
    intro _ s' c' h
    simp only [upsertBest, List.mem_singleton, Prod.mk.injEq, true_and] at h
    exact Or.inl ⟨h.1, h.2, fun s0 c0 h0 => absurd h0 (List.not_mem_nil _)⟩
  | cons hd tl ih =>
    intro hnd s' c' h
    obtain ⟨k0, s0, c0⟩ := hd
    have hnd' : (tl.map (fun t => t.1)).Nodup := by
      simpa using hnd.of_cons
    rw [upsertBest_cons_eq] at h
    by_cases hk : k0 = k
    · subst hk
      have hknot : ∀ s1 c1, (k0, s1, c1) ∉ tl := by
        intro s1 c1 hmem
        have hkmem : k0 ∈ tl.map (fun t => t.1) :=
          List.mem_map.mpr ⟨(k0, s1, c1), hmem, rfl⟩
        exact (List.nodup_cons.mp (by simpa using hnd)).1 hkmem
      rw [if_pos rfl] at h
      by_cases hs : s0 < s
      · rw [if_pos hs] at h
        rcases List.mem_cons.mp h with h | h
        · simp only [Prod.mk.injEq, true_and] at h
          refine Or.inl ⟨h.1, h.2, ?_⟩
          intro s1 c1 h1
          rcases List.mem_cons.mp h1 with h1 | h1
          · simp only [Prod.mk.injEq, true_and] at h1
            rw [h1.1]
            exact hs
          · exact absurd h1 (hknot _ _)
        · exact absurd h (hknot _ _)
      · rw [if_neg hs] at h
        rcases List.mem_cons.mp h with h | h
        · simp only [Prod.mk.injEq, true_and] at h
          refine Or.inr ⟨?_, ?_⟩
          · rw [h.1, h.2]
            exact List.mem_cons_self _ _
          · rw [h.1]
            exact le_of_not_lt hs
        · exact absurd h (hknot _ _)
    · rw [if_neg hk] at h
      rcases List.mem_cons.mp h with h | h
      · exfalso
        simp only [Prod.mk.injEq] at h
        exact hk h.1.symm
      · rcases ih hnd' s' c' h with ⟨h1, h2, h3⟩ | ⟨h1, h2⟩
        · refine Or.inl ⟨h1, h2, ?_⟩
          intro s1 c1 hmem
          rcases List.mem_cons.mp hmem with hmem | hmem
          · exfalso
            simp only [Prod.mk.injEq] at hmem
            exact hk hmem.1.symm
          · exact h3 s1 c1 hmem
        · exact Or.inr ⟨List.mem_cons_of_mem _ h1, h2⟩

theorem upsertBest_nodup (k : String) (s : ℚ) (c : Chunk)
    (acc : List (String × ℚ × Chunk)) (hnd : (acc.map (fun t => t.1)).Nodup) :
    ((upsertBest acc k s c).map (fun t => t.1)).Nodup := by
  rw [upsertBest_keys]
  split
  · exact hnd
  · rename_i hmem
    simp [List.nodup_append, hnd, hmem]

theorem upsertBest_key_mem (k : String) (s : ℚ) (c : Chunk)
    (acc : List (String × ℚ × Chunk)) :
    k ∈ (upsertBest acc k s c).map (fun t => t.1) := by
  rw [upsertBest_keys]
  split
  · assumption
  · simp

theorem upsertBest_keys_subset (k : String) (s : ℚ) (c : Chunk)
    (acc : List (String × ℚ × Chunk)) (k' : String)
    (h : k' ∈ acc.map (fun t => t.1)) :
    k' ∈ (upsertBest acc k s c).map (fun t => t.1) := by
  rw [upsertBest_keys]
  split
  · exact h
  · exact List.mem_append_left _ h

theorem scoresFor_append (l1 l2 : List (Chunk × ℚ)) (k : String) :
    scoresFor (l1 ++ l2) k = scoresFor l1 k ++ scoresFor l2 k := by
  simp [scoresFor, List.filterMap_append]

theorem scoresFor_single_self (c0 : Chunk) (s0 : ℚ) :
    scoresFor [(c0, s0)] c0.entry_id = [s0] := by
  simp [scoresFor]

theorem scoresFor_single_ne (c0 : Chunk) (s0 : ℚ) (k : String)
    (h : ¬(c0.entry_id = k)) : scoresFor [(c0, s0)] k = [] := by
  simp [scoresFor, h]

theorem aggregate_go (cands : List (Chunk × ℚ)) :
    ∀ (past : List (Chunk × ℚ)) (acc : List (String × ℚ × Chunk)),
      (acc.map (fun t => t.1)).Nodup →
      (∀ t ∈ acc, t.2.2.entry_id = t.1 ∧ bestPred past t.1 t.2.1) →
      (∀ k, scoresFor past k ≠ [] → k ∈ acc.map (fun t => t.1)) →
      (((cands.foldl (fun acc p => upsertBest acc p.1.entry_id p.2 p.1) acc).map
          (fun t => t.1)).Nodup
      ∧ ∀ t ∈ cands.foldl (fun acc p => upsertBest acc p.1.entry_id p.2 p.1) acc,
          t.2.2.entry_id = t.1 ∧ bestPred (past ++ cands) t.1 t.2.1) := by
  induction cands with
  | nil =>
    intro past acc hnd hbest _
    refine ⟨hnd, ?_⟩
    simpa using hbest
  | cons p tl ih =>
    intro past acc hnd hbest hcomp
    obtain ⟨c0, s0⟩ := p
    simp only [List.foldl_cons]
    have hrw : past ++ (c0, s0) :: tl = (past ++ [(c0, s0)]) ++ tl := by simp
    rw [hrw]
    apply ih (past ++ [(c0, s0)]) (upsertBest acc c0.entry_id s0 c0)
    · exact upsertBest_nodup _ _ _ acc hnd
    · intro t ht
      by_cases hkey : t.1 = c0.entry_id
      · have ht2 : (c0.entry_id, t.2.1, t.2.2) ∈ upsertBest acc c0.entry_id s0 c0 := by
          have heta : (t.1, t.2.1, t.2.2) = t := rfl
          rw [hkey] at heta
          rw [heta]
          exact ht
        rcases upsertBest_mem_key _ _ _ acc hnd t.2.1 t.2.2 ht2 with
          ⟨hseq, hceq, h3⟩ | ⟨h1, h2⟩
        · rw [hkey, hseq, hceq]
          refine ⟨rfl, ?_, ?_⟩
          · rw [scoresFor_append]
            refine List.mem_append_right _ ?_
            rw [scoresFor_single_self]
            exact List.mem_singleton_self _
          · intro s1 hs1
            rw [scoresFor_append] at hs1
            rcases List.mem_append.mp hs1 with hs1 | hs1
            · by_cases hpast : scoresFor past c0.entry_id = []
              · rw [hpast] at hs1
                simp at hs1
              · have hkeymem := hcomp _ hpast
                obtain ⟨t', ht', hteq⟩ := List.mem_map.mp hkeymem
                obtain ⟨hid, hmem', hub⟩ := hbest t' ht'
                have hmemacc : (c0.entry_id, t'.2.1, t'.2.2) ∈ acc := by
                  have heta : (t'.1, t'.2.1, t'.2.2) = t' := rfl
                  rw [hteq] at heta
                  rw [heta]
                  exact ht'
                have hlt : t'.2.1 < s0 := h3 _ _ hmemacc
                rw [hteq] at hub
                have hle : s1 ≤ t'.2.1 := hub s1 hs1
                linarith
            · rw [scoresFor_single_self] at hs1
              rw [List.mem_singleton.mp hs1]
        · obtain ⟨hid, hmem', hub⟩ := hbest _ h1
          refine ⟨by rw [hkey]; exact hid, ?_, ?_⟩
          · rw [hkey, scoresFor_append]
            exact List.mem_append_left _ hmem'
          · intro s1 hs1
            rw [hkey, scoresFor_append] at hs1
            rcases List.mem_append.mp hs1 with hs1 | hs1
            · exact hub _ hs1
            · rw [scoresFor_single_self] at hs1
              rw [List.mem_singleton.mp hs1]
              exact h2
      · have ht' : t ∈ acc := (upsertBest_mem_ne _ _ _ acc t hkey).mp ht
        obtain ⟨hid, hmem', hub⟩ := hbest t ht'
        refine ⟨hid, ?_, ?_⟩
        · rw [scoresFor_append]
          exact List.mem_append_left _ hmem'
        · intro s1 hs1
          rw [scoresFor_append] at hs1
          rcases List.mem_append.mp hs1 with hs1 | hs1
          · exact hub _ hs1
          · exfalso
            rw [scoresFor_single_ne c0 s0 t.1 (fun h => hkey h.symm)] at hs1
            simp at hs1
    · intro k hk
      rw [scoresFor_append] at hk
      by_cases hpast : scoresFor past k = []
      · have h2 : scoresFor [(c0, s0)] k ≠ [] := by
          intro hnil
          exact hk (by rw [hpast, hnil]; rfl)
        have : c0.entry_id = k := by
          by_contra hne
          exact h2 (scoresFor_single_ne c0 s0 k hne)
        rw [← this]
        exact upsertBest_key_mem _ _ _ acc
      · exact upsertBest_keys_subset _ _ _ acc k (hcomp k hpast)

theorem aggregateBest_spec (cands : List (Chunk × ℚ)) :
    ((aggregateBest cands).map (fun t => t.1)).Nodup
    ∧ ∀ t ∈ aggregateBest cands,
        t.2.2.entry_id = t.1 ∧ bestPred cands t.1 t.2.1 := by
  have h := aggregate_go cands [] [] (by simp) (by simp) (by simp [scoresFor])
  simpa [aggregateBest] using h

/-- The descending-score order used by `sorted(..., key=score, reverse=True)`.
A stable sort under this relation is extensionally the unique stable
descending sort Python produces; Mathlib's insertion sort is stable. -/
def scoreGe (a b : String × ℚ × Chunk) : Prop := b.2.1 ≤ a.2.1

instance : DecidableRel scoreGe :=
  fun a b => inferInstanceAs (Decidable (b.2.1 ≤ a.2.1))

instance : IsTotal (String × ℚ × Chunk) scoreGe :=
  ⟨fun a b => le_total b.2.1 a.2.1⟩

instance : IsTrans (String × ℚ × Chunk) scoreGe :=
  ⟨fun _ _ _ hab hbc => le_trans hbc hab⟩

/-- `sorted(entry_scores.items(), key=..., reverse=True)[:top_k]`. -/
def rankTruncate (top_k : Nat) (l : List (String × ℚ × Chunk)) :
    List (String × ℚ × Chunk) :=
  (List.insertionSort scoreGe l).take top_k

/-- The aggregation-and-ranking part of `VectorSearcher.search`, from the
retrieved `(row, similarity)` pairs on. -/
def vectorSearchRanked (chunks : List Chunk) (retrieved : List (Int × ℚ))
    (entry_id? : Option String) (entry_types? : Option (List EntryType))
    (top_k : Nat) : List (String × ℚ × Chunk) :=
  rankTruncate top_k (aggregateBest (candidates chunks retrieved entry_id? entry_types?))

/-- Build one `SearchResult` from a ranked entry: resolve the full entry
text (falling back to the winning chunk's own text) and optionally attach
fragments with `max_fragments=3`. -/
def mkResult (resolve : EntryType → String → Option String)
    (query_terms : List String) (extract_fragments_flag : Bool)
    (context_lines : Nat) (t : String × ℚ × Chunk) : SearchResult :=
  let content := (resolve t.2.2.entry_type t.1).getD t.2.2.text
  { entry_id := t.1
    score := t.2.1
    content := content
    entry_type := t.2.2.entry_type
    fragments :=
      if extract_fragments_flag then
        extract_fragments content query_terms context_lines 3
      else [] }

/-- Embedding of `VectorSearcher.search`: nearest-chunk retrieval is the
injected oracle `indexSearch`, called with `search_k = min(top_k * 10,
len(chunks))`; `resolve` is the registry lookup yielding an entry's full
searchable text when it still exists. -/
def vectorSearch (chunks : List Chunk) (indexSearch : Nat → List (Int × ℚ))
    (resolve : EntryType → String → Option String) (query : String)
    (entry_id? : Option String) (top_k : Nat)
    (extract_fragments_flag : Bool) (context_lines : Nat)
    (entry_types? : Option (List EntryType)) : List SearchResult :=
  (vectorSearchRanked chunks (indexSearch (search_k top_k chunks)) entry_id?
      entry_types? top_k).map
    (mkResult resolve (pySplitWhitespace query) extract_fragments_flag context_lines)

/-- C1: for every built index (chunk list plus retrieval oracle
returning at most `k` rows for a request of `k`) and every `top_k ≥ 1`,
`VectorSearcher.search` retrieves at most `min(top_k * 10, len(chunks))`
chunks, and returns at most `top_k` results with pairwise-distinct
`entry_id`s, sorted by descending score, each result's score being the
highest similarity among that entry's retrieved chunks after the
`entry_id`/`entry_types` filters. -/
theorem vectorSearch_spec (chunks : List Chunk)
    (indexSearch : Nat → List (Int × ℚ))
    (resolve : EntryType → String → Option String) (query : String)
    (entry_id? : Option String) (top_k : Nat) (ef : Bool) (cl : Nat)
    (entry_types? : Option (List EntryType))
    (htk : 1 ≤ top_k)
    (hlen : ∀ k, (indexSearch k).length ≤ k) :
    (indexSearch (search_k top_k chunks)).length ≤ min (top_k * 10) chunks.length
    ∧ (vectorSearch chunks indexSearch resolve query entry_id? top_k ef cl
        entry_types?).length ≤ top_k
    ∧ ((vectorSearch chunks indexSearch resolve query entry_id? top_k ef cl
        entry_types?).map SearchResult.entry_id).Nodup
    ∧ (vectorSearch chunks indexSearch resolve query entry_id? top_k ef cl
        entry_types?).Pairwise (fun a b => b.score ≤ a.score)
    ∧ ∀ r ∈ vectorSearch chunks indexSearch resolve query entry_id? top_k ef cl
        entry_types?,
        bestPred (candidates chunks (indexSearch (search_k top_k chunks))
          entry_id? entry_types?) r.entry_id r.score := by
  refine ⟨?_, ?_, ?_, ?_, ?_⟩
  · exact hlen _
  · calc (vectorSearch chunks indexSearch resolve query entry_id? top_k ef cl
        entry_types?).length
        = (vectorSearchRanked chunks (indexSearch (search_k top_k chunks))
            entry_id? entry_types? top_k).length := List.length_map _ _
    _ ≤ top_k := List.length_take_le _ _
  · have hfuse : ((vectorSearch chunks indexSearch resolve query entry_id?
        top_k ef cl entry_types?).map SearchResult.entry_id)
        = (vectorSearchRanked chunks (indexSearch (search_k top_k chunks))
            entry_id? entry_types? top_k).map (fun t => t.1) := by
      simp only [vectorSearch, List.map_map]
      rfl
    rw [hfuse]
    have hperm : List.Perm
        ((List.insertionSort scoreGe (aggregateBest (candidates chunks
          (indexSearch (search_k top_k chunks)) entry_id? entry_types?))).map
            (fun t => t.1))
        ((aggregateBest (candidates chunks (indexSearch (search_k top_k chunks))
            entry_id? entry_types?)).map (fun t => t.1)) :=
      (List.perm_insertionSort scoreGe _).map _
    have hnd : ((List.insertionSort scoreGe (aggregateBest (candidates chunks
        (indexSearch (search_k top_k chunks)) entry_id? entry_types?))).map
          (fun t => t.1)).Nodup :=
      hperm.nodup_iff.mpr (aggregateBest_spec _).1
    have hsub : List.Sublist
        ((vectorSearchRanked chunks (indexSearch (search_k top_k chunks))
          entry_id? entry_types? top_k).map (fun t => t.1))
        ((List.insertionSort scoreGe (aggregateBest (candidates chunks
            (indexSearch (search_k top_k chunks)) entry_id? entry_types?))).map
          (fun t => t.1)) :=
      (List.take_sublist _ _).map _
    exact hnd.sublist hsub
  · have hsorted : List.Pairwise scoreGe (List.insertionSort scoreGe
        (aggregateBest (candidates chunks (indexSearch (search_k top_k chunks))
          entry_id? entry_types?))) :=
      List.sorted_insertionSort scoreGe _
    have hranked : List.Pairwise scoreGe (vectorSearchRanked chunks
        (indexSearch (search_k top_k chunks)) entry_id? entry_types? top_k) :=
      hsorted.sublist (List.take_sublist _ _)
    exact List.Pairwise.map _ (fun a b h => h) hranked
  · intro r hr
    obtain ⟨t, ht, rfl⟩ := List.mem_map.mp hr
    have ht1 : t ∈ List.insertionSort scoreGe (aggregateBest (candidates chunks
        (indexSearch (search_k top_k chunks)) entry_id? entry_types?)) :=
      List.mem_of_mem_take ht
    have ht2 : t ∈ aggregateBest (candidates chunks
        (indexSearch (search_k top_k chunks)) entry_id? entry_types?) :=
      (List.perm_insertionSort scoreGe _).mem_iff.mp ht1
    exact ((aggregateBest_spec _).2 t ht2).2

/-- Witness data (spec §8 example, scores scaled by 100): entry `A` has
chunks with similarities 95 and 90, entry `B` one chunk with 92. -/
def exampleChunks : List Chunk :=
  [⟨"A", EntryType.paper, 0, "a0", none, none, none, 1, 1⟩,
   ⟨"A", EntryType.paper, 1, "a1", none, none, none, 1, 1⟩,
   ⟨"B", EntryType.paper, 0, "b0", none, none, none, 1, 1⟩]

/-- Witness retrieval oracle: rows by descending similarity, truncated
to the requested `k`. -/
def exampleOracle (k : Nat) : List (Int × ℚ) :=
  ([((1 : Int), (95 : ℚ)), (2, 92), (0, 90)]).take k

theorem vectorSearch_spec_witness :
    (1 ≤ 2 ∧ ∀ k, (exampleOracle k).length ≤ k)
    ∧ ((exampleOracle (search_k 2 exampleChunks)).length
        ≤ min (2 * 10) exampleChunks.length
    ∧ (vectorSearch exampleChunks exampleOracle (fun _ _ => none) "q" none 2
        false 3 none).length ≤ 2
    ∧ ((vectorSearch exampleChunks exampleOracle (fun _ _ => none) "q" none 2
        false 3 none).map SearchResult.entry_id).Nodup
    ∧ (vectorSearch exampleChunks exampleOracle (fun _ _ => none) "q" none 2
        false 3 none).Pairwise (fun a b => b.score ≤ a.score)
    ∧ ∀ r ∈ vectorSearch exampleChunks exampleOracle (fun _ _ => none) "q"
        none 2 false 3 none,
        bestPred (candidates exampleChunks (exampleOracle
          (search_k 2 exampleChunks)) none none) r.entry_id r.score) :=
  ⟨⟨by decide, fun k => by
      simp only [exampleOracle]
      exact List.length_take_le _ _⟩,
    vectorSearch_spec exampleChunks exampleOracle (fun _ _ => none) "q" none 2
      false 3 none (by decide)
      (fun k => by
        simp only [exampleOracle]
        exact List.length_take_le _ _)⟩

/-- The spec §8 aggregation example evaluated: `A` is returned once with
its best similarity 95, ranked above `B` at 92. -/
theorem vectorSearch_example_eval :
    (vectorSearch exampleChunks exampleOracle (fun _ _ => none) "q" none 2
        false 3 none).map (fun r => (r.entry_id, r.score))
      = [("A", (95 : ℚ)), ("B", 92)] := by decide

/-! ### Combined lexical search (`CombinedSearcher.search` in search.py)

Each per-collection search runs to either a result list or the
`ValueError` its loading/rebuild path raises; `CombinedSearcher.search`
wraps each call in `try/except ValueError` and skips a failed
collection. -/

/-- The descending-score order on results (`all_results.sort(key=score,
reverse=True)`). -/
def resGe (a b : SearchResult) : Prop := b.score ≤ a.score

instance : DecidableRel resGe :=
  fun a b => inferInstanceAs (Decidable (b.score ≤ a.score))

instance : IsTotal SearchResult resGe := ⟨fun a b => le_total b.score a.score⟩

instance : IsTrans SearchResult resGe :=
  ⟨fun _ _ _ hab hbc => le_trans hbc hab⟩

/-- Embedding of `CombinedSearcher.search`: the three per-collection
outcomes are given as `Except Unit (List SearchResult)` (an `error`
models a raised `ValueError`); a failed collection is skipped, the rest
are concatenated in paper/book/media order, stably sorted by descending
score, and truncated to `top_k`. -/
def combinedSearch (top_k : Nat) (entry_types? : Option (List EntryType))
    (paperRes bookRes mediaRes : Except Unit (List SearchResult)) :
    List SearchResult :=
  let ts := entry_types?.getD [EntryType.paper, EntryType.book, EntryType.media]
  let collect := fun (t : EntryType) (r : Except Unit (List SearchResult)) =>
    if ts.contains t then
      match r with
      | .ok l => l
      | .error _ => []
    else []
  let all := collect EntryType.paper paperRes ++ collect EntryType.book bookRes
    ++ collect EntryType.media mediaRes
  (List.insertionSort resGe all).take top_k

/-- C9: a failing collection search is skipped, never propagated: with
the book collection failing, the result equals the result with an empty
book collection — the remaining collections' results concatenated,
sorted by descending score and truncated to `top_k` — and it is sorted,
at most `top_k` long, and drawn from the surviving collections. -/
theorem combinedSearch_skips_failure (top_k : Nat)
    (entry_types? : Option (List EntryType)) (pl ml : List SearchResult) :
    (∀ pRes bRes mRes : Except Unit (List SearchResult),
      combinedSearch top_k entry_types? pRes (.error ()) mRes
          = combinedSearch top_k entry_types? pRes (.ok []) mRes
      ∧ combinedSearch top_k entry_types? (.error ()) bRes mRes
          = combinedSearch top_k entry_types? (.ok []) bRes mRes
      ∧ combinedSearch top_k entry_types? pRes bRes (.error ())
          = combinedSearch top_k entry_types? pRes bRes (.ok []))
    ∧ combinedSearch top_k none (.ok pl) (.error ()) (.ok ml)
      = (List.insertionSort resGe (pl ++ ml)).take top_k
    ∧ (combinedSearch top_k entry_types? (.ok pl) (.error ()) (.ok ml)).Pairwise
        (fun a b => b.score ≤ a.score)
    ∧ (combinedSearch top_k entry_types? (.ok pl) (.error ()) (.ok ml)).length
        ≤ top_k
    ∧ ∀ r ∈ combinedSearch top_k none (.ok pl) (.error ()) (.ok ml),
        r ∈ pl ∨ r ∈ ml := by
  refine ⟨fun pRes bRes mRes => ⟨rfl, rfl, rfl⟩, ?_, ?_, ?_, ?_⟩
  · simp [combinedSearch]
  · exact ((List.sorted_insertionSort resGe _).sublist
      (List.take_sublist _ _)).imp (fun h => h)
  · exact List.length_take_le _ _
  · intro r hr
    have h1 := List.mem_of_mem_take hr
    have h2 := (List.perm_insertionSort resGe _).mem_iff.mp h1
    simp only [combinedSearch] at h2
    rcases List.mem_append.mp h2 with h2 | h2
    · rcases List.mem_append.mp h2 with h2 | h2
      · exact Or.inl (by simpa using h2)
      · simp at h2
    · exact Or.inr (by simpa using h2)

/-! ### Embedding model configuration (vector/embeddings.py) -/

/-- `EmbeddingModelConfig` from embeddings.py (the price is a rational). -/
structure EmbeddingModelConfig where
  model_id : String
  default_dimensions : Nat
  supported_dimensions : Option (List Nat)
  max_input_tokens : Nat
  price_per_1000_tokens : ℚ
deriving DecidableEq, Repr

/-- The `EMBEDDING_MODELS` table, in insertion order. -/
def EMBEDDING_MODELS : List (String × EmbeddingModelConfig) :=
  [("titan-v1", ⟨"amazon.titan-embed-text-v1", 1536, none, 8192, 1 / 10000⟩),
   ("titan-v2", ⟨"amazon.titan-embed-text-v2:0", 1024, none, 8192, 2 / 100000⟩),
   ("cohere-en", ⟨"cohere.embed-english-v3", 1024, none, 512, 1 / 10000⟩),
   ("cohere-multi", ⟨"cohere.embed-multilingual-v3", 1024, none, 512, 1 / 10000⟩),
   ("nova", ⟨"amazon.nova-2-multimodal-embeddings-v1:0", 1024,
     some [256, 512, 1024, 3072], 8000, 1 / 100000⟩)]

/-- The registry/search errors the embedded code distinguishes
(`ModelMismatchError` is declared in vector/errors.py). -/
inductive RegErr where
  | valueError
  | namedIndexNotFound (name : String)
  | modelMismatch (index_model query_model : String)
deriving DecidableEq, Repr

/-- `get_model_config(model_name)`: dictionary lookup, `ValueError` on an
unknown model name. -/
def get_model_config (model_name : String) : Except RegErr EmbeddingModelConfig :=
  match EMBEDDING_MODELS.find? (fun p => p.1 = model_name) with
  | none => .error .valueError
  | some p => .ok p.2

/-- `validate_dimensions(model_name, dimensions)` from embeddings.py. -/
def validate_dimensions (model_name : String) (dimensions : Option Nat) :
    Except RegErr Nat :=
  match get_model_config model_name with
  | .error e => .error e
  | .ok config =>
    match dimensions with
    | none => .ok config.default_dimensions
    | some dims =>
      match config.supported_dimensions with
      | none =>
        if dims ≠ config.default_dimensions then .error .valueError else .ok dims
      | some supported =>
        if dims ∉ supported then .error .valueError else .ok dims

/-! ### Named vector index registry (vector/registry.py)

The registry's persisted state is modelled as three association lists
with Python-dict semantics: the top-level registry file (`indices`), the
per-index metadata files, and the per-index vector artifacts (a FAISS
file and a chunk-metadata file, written together by `save_index_data`
and absent together until then). -/

/-- `VectorIndexMetadata` from models.py (timestamps as abstract ticks). -/
structure VectorIndexMetadata where
  name : String
  embedding_model : String
  dimensions : Nat
  chunk_size : Nat
  chunk_overlap : Nat
  chunk_count : Nat
  total_tokens : Nat
  estimated_cost_usd : ℚ
  created_at : Nat
  updated_at : Nat
deriving DecidableEq, Repr

/-- A persisted vector artifact: FAISS row count plus the chunk list. -/
structure IndexArtifact where
  rows : Nat
  chunks : List Chunk
deriving DecidableEq, Repr

/-- The registry's persisted state. -/
structure RegistryState where
  indices : List (String × VectorIndexMetadata)
  index_metadata_files : List (String × VectorIndexMetadata)
  artifacts : List (String × IndexArtifact)
deriving DecidableEq, Repr

/-- Python dict lookup on an association list. -/
def dictGet {α : Type} (l : List (String × α)) (k : String) : Option α :=
  (l.find? (fun p => p.1 = k)).map (fun p => p.2)

/-- Python dict assignment: replace in place, or append a new key. -/
def dictSet {α : Type} (l : List (String × α)) (k : String) (v : α) :
    List (String × α) :=
  match l with
  | [] => [(k, v)]
  | (k0, v0) :: rest =>
    if k0 = k then (k0, v) :: rest else (k0, v0) :: dictSet rest k v

/-- `VectorIndexRegistry.create_index(name, model_name, dimensions,
chunk_size, chunk_overlap)`: fails if the name exists or the model or
dimensions are invalid; writes metadata with zero statistics to the
registry and the per-index metadata file.  No vector artifact is
written. -/
def create_index (s : RegistryState) (now : Nat) (name model_name : String)
    (dimensions : Option Nat) (chunk_size chunk_overlap : Nat) :
    Except RegErr (VectorIndexMetadata × RegistryState) :=
  if (dictGet s.indices name).isSome then .error .valueError
  else
    match get_model_config model_name with
    | .error e => .error e
    | .ok config =>
      match validate_dimensions model_name dimensions with
      | .error e => .error e
      | .ok dims =>
        let md : VectorIndexMetadata :=
          ⟨name, config.model_id, dims, chunk_size, chunk_overlap,
            0, 0, 0, now, now⟩
        .ok (md, { s with
          indices := dictSet s.indices name md,
          index_metadata_files := dictSet s.index_metadata_files name md })

/-- `VectorIndexRegistry.load_index_data(name)`: requires the index to be
registered and both artifact files to exist; otherwise raises
`NamedIndexNotFoundError`. -/
def load_index_data (s : RegistryState) (name : String) :
    Except RegErr IndexArtifact :=
  if (dictGet s.indices name).isNone then .error (.namedIndexNotFound name)
  else
    match dictGet s.artifacts name with
    | none => .error (.namedIndexNotFound name)
    | some a => .ok a

/-- `VectorIndexRegistry.get_model_name_for_index(name)`: reverse lookup
of the CLI model name from the stored model id, falling back to the
model id itself. -/
def get_model_name_for_index (s : RegistryState) (name : String) :
    Except RegErr String :=
  match dictGet s.indices name with
  | none => .error (.namedIndexNotFound name)
  | some md =>
    match EMBEDDING_MODELS.find? (fun p => p.2.model_id = md.embedding_model) with
    | some p => .ok p.1
    | none => .ok md.embedding_model

/-- Python truthiness of an optional string (`None` and `""` are falsy). -/
def pyStrOr (o : Option String) (d : String) : String :=
  match o with
  | none => d
  | some v => if v = "" then d else v

/-- Embedding of the `VectorSearcher.embeddings` property: the
`(model_name, dimensions)` pair the searcher constructs its
`BedrockEmbeddings` client with.  For a named index that exists, the
model stored in the index metadata is used and the caller-supplied model
is ignored; only when the index does not exist yet does the caller's
model (or the titan-v2 default) apply. -/
def resolve_embeddings (s : RegistryState) (index_name : Option String)
    (caller_model : Option String) (caller_dims : Option Nat) :
    Except RegErr (String × Option Nat) :=
  match index_name with
  | some iname =>
    if iname = "" then .ok (pyStrOr caller_model "titan-v2", caller_dims)
    else
      match dictGet s.indices iname with
      | some md =>
        match get_model_name_for_index s iname with
        | .ok m => .ok (m, some md.dimensions)
        | .error e => .error e
      | none =>
        match caller_model with
        | some cm =>
          if cm = "" then .ok ("titan-v2", none) else .ok (cm, caller_dims)
        | none => .ok ("titan-v2", none)
  | none => .ok (pyStrOr caller_model "titan-v2", caller_dims)

/-- `VectorIndexRegistry.remove_entry_from_index(name, entry_id)`:
filter out the entry's chunks; when none matched, return 0 without
touching any persisted state; otherwise re-embed the survivors via the
injected embedding capability, rebuild and save the artifact, and update
the metadata (token/cost totals deliberately not decremented). -/
def remove_entry_from_index (s : RegistryState) (now : Nat)
    (embedTexts : List String → Except RegErr (List (List ℚ) × Nat × ℚ))
    (name entry_id : String) : Except RegErr (Nat × RegistryState) :=
  if (dictGet s.indices name).isNone then .error (.namedIndexNotFound name)
  else
    match load_index_data s name with
    | .error e => .error e
    | .ok art =>
      match dictGet s.indices name with
      | none => .error (.namedIndexNotFound name)
      | some metadata =>
        let remaining := art.chunks.filter (fun c => c.entry_id ≠ entry_id)
        let removed := art.chunks.length - remaining.length
        if removed = 0 then .ok (0, s)
        else
          match (if remaining = [] then .ok ([], 0, 0)
            else embedTexts (remaining.map (fun c => c.text))) with
          | .error e => .error e
          | .ok (embs, _, _) =>
            let art' : IndexArtifact :=
              ⟨if remaining = [] then 0 else embs.length, remaining⟩
            let md' := { metadata with
              chunk_count := remaining.length, updated_at := now }
            .ok (removed, { s with
              artifacts := dictSet s.artifacts name art',
              indices := dictSet s.indices name md',
              index_metadata_files := dictSet s.index_metadata_files name md' })

theorem dictGet_dictSet_self {α : Type} (l : List (String × α)) (k : String)
    (v : α) : dictGet (dictSet l k v) k = some v := by
  induction l with
  | nil => simp [dictGet, dictSet]
  | cons hd tl ih =>
    obtain ⟨k0, v0⟩ := hd
    by_cases hk : k0 = k
    · subst hk
      simp [dictGet, dictSet]
    · simp only [dictSet, if_neg hk]
      simpa [dictGet, List.find?_cons, hk] using ih

/-- A registry holding one index named `idx` built with the nova model. -/
def novaIndexMd : VectorIndexMetadata :=
  ⟨"idx", "amazon.nova-2-multimodal-embeddings-v1:0", 1024, 300, 50, 0, 0, 0, 0, 0⟩

def novaRegistry : RegistryState :=
  ⟨[("idx", novaIndexMd)], [("idx", novaIndexMd)], []⟩

theorem get_model_name_ok (s : RegistryState) (iname : String)
    (md : VectorIndexMetadata) (hidx : dictGet s.indices iname = some md) :
    ∃ m, get_model_name_for_index s iname = .ok m := by
  unfold get_model_name_for_index
  rw [hidx]
  show ∃ m, (match EMBEDDING_MODELS.find?
      (fun p => p.2.model_id = md.embedding_model) with
    | some p => Except.ok p.1
    | none => Except.ok md.embedding_model) = Except.ok m
  cases EMBEDDING_MODELS.find? (fun p => p.2.model_id = md.embedding_model) with
  | some p => exact ⟨_, rfl⟩
  | none => exact ⟨_, rfl⟩

/-- C2: the code never raises `ModelMismatchError` — querying a nova
index with a caller-supplied `titan-v2` silently resolves the embedding
client to the index's own model, and `resolve_embeddings` returns `.ok`
for every state and argument, so no model mismatch (nor any other
error) is ever surfaced from this path. -/
theorem resolve_embeddings_never_mismatch :
    resolve_embeddings novaRegistry (some "idx") (some "titan-v2") none
      = .ok ("nova", some 1024)
    ∧ ∀ (s : RegistryState) (index_name caller_model : Option String)
        (caller_dims : Option Nat),
        ∃ v, resolve_embeddings s index_name caller_model caller_dims = .ok v := by
  constructor
  · rfl
  · intro s index_name caller_model caller_dims
    cases index_name with
    | none => exact ⟨_, rfl⟩
    | some iname =>
      simp only [resolve_embeddings]
      by_cases hn : iname = ""
      · rw [if_pos hn]
        exact ⟨_, rfl⟩
      · rw [if_neg hn]
        cases hidx : dictGet s.indices iname with
        | some md =>
          obtain ⟨m, hm⟩ := get_model_name_ok s iname md hidx
          show ∃ v, (match get_model_name_for_index s iname with
            | Except.ok m => Except.ok (m, some md.dimensions)
            | Except.error e => Except.error e) = Except.ok v
          rw [hm]
          exact ⟨_, rfl⟩
        | none =>
          cases caller_model with
          | none => exact ⟨_, rfl⟩
          | some cm =>
            show ∃ v, (if cm = "" then Except.ok ("titan-v2", none)
              else Except.ok (cm, caller_dims)) = Except.ok v
            by_cases hcm : cm = ""
            · rw [if_pos hcm]
              exact ⟨_, rfl⟩
            · rw [if_neg hcm]
              exact ⟨_, rfl⟩

/-- The empty registry state. -/
def emptyRegistry : RegistryState := ⟨[], [], []⟩

/-- The metadata `create_index` writes for the C4 counterexample call. -/
def c4Metadata : VectorIndexMetadata :=
  ⟨"idx", "amazon.titan-embed-text-v2:0", 1024, 300, 50, 0, 0, 0, 7, 7⟩

/-- The registry state after the C4 counterexample call. -/
def c4State : RegistryState :=
  ⟨[("idx", c4Metadata)], [("idx", c4Metadata)], []⟩

/-- C4 counterexample: directly after a successful `create_index`, no
vector artifact exists, so `load_index_data` fails with
`NamedIndexNotFoundError` instead of yielding zero chunks. -/
theorem create_index_then_load_counterexample :
    create_index emptyRegistry 7 "idx" "titan-v2" none 300 50
      = .ok (c4Metadata, c4State)
    ∧ load_index_data c4State "idx"
      = .error (.namedIndexNotFound "idx") :=
  ⟨rfl, rfl⟩

/-- C4 (amended): after every successful `create_index`, the persisted
metadata has `chunk_count = 0`, `total_tokens = 0` and estimated cost 0,
and the registry and per-index metadata file record it; but no vector
artifact is written, so for a name with no stale artifact
`load_index_data` immediately afterwards fails with
`NamedIndexNotFoundError` until the first rebuild or save writes the
artifact. -/
theorem create_index_init (s : RegistryState) (now : Nat)
    (name model_name : String) (dimensions : Option Nat) (cs ov : Nat)
    (md : VectorIndexMetadata) (s' : RegistryState)
    (h : create_index s now name model_name dimensions cs ov = .ok (md, s'))
    (hart : dictGet s.artifacts name = none) :
    md.chunk_count = 0 ∧ md.total_tokens = 0 ∧ md.estimated_cost_usd = 0
    ∧ dictGet s'.indices name = some md
    ∧ dictGet s'.index_metadata_files name = some md
    ∧ s'.artifacts = s.artifacts
    ∧ load_index_data s' name = .error (.namedIndexNotFound name) := by
  unfold create_index at h
  split at h
  · exact absurd h (by simp)
  · rename_i hnone
    split at h
    · exact absurd h (by simp)
    · split at h
      · exact absurd h (by simp)
      · have hmd := congrArg Prod.fst (Except.ok.inj h)
        have hs' := congrArg Prod.snd (Except.ok.inj h)
        simp only at hmd hs'
        refine ⟨by rw [← hmd], by rw [← hmd], by rw [← hmd], ?_, ?_, ?_, ?_⟩
        · rw [← hs']
          show dictGet (dictSet s.indices name _) name = some md
          rw [dictGet_dictSet_self, hmd]
        · rw [← hs']
          show dictGet (dictSet s.index_metadata_files name _) name = some md
          rw [dictGet_dictSet_self, hmd]
        · rw [← hs']
        · unfold load_index_data
          rw [if_neg (by
            rw [← hs']
            show ¬(dictGet (dictSet s.indices name _) name).isNone = true
            rw [dictGet_dictSet_self]
            simp)]
          rw [show s'.artifacts = s.artifacts by rw [← hs'], hart]

theorem create_index_init_witness :
    (c4Metadata.chunk_count = 0 ∧ c4Metadata.total_tokens = 0
    ∧ c4Metadata.estimated_cost_usd = 0
    ∧ dictGet c4State.indices "idx" = some c4Metadata
    ∧ dictGet c4State.index_metadata_files "idx" = some c4Metadata
    ∧ c4State.artifacts = emptyRegistry.artifacts
    ∧ load_index_data c4State "idx" = .error (.namedIndexNotFound "idx")) :=
  create_index_init emptyRegistry 7 "idx" "titan-v2" none 300 50 c4Metadata
    c4State rfl rfl

/-- C10: removing an entry that has no persisted chunk in an existing,
loadable index returns 0 and leaves the entire persisted state — the
vector artifact, the chunk list, and the per-index metadata with its
statistics and timestamps — untouched. -/
theorem remove_entry_absent_noop (s : RegistryState) (now : Nat)
    (embedTexts : List String → Except RegErr (List (List ℚ) × Nat × ℚ))
    (name entry_id : String) (md : VectorIndexMetadata) (art : IndexArtifact)
    (h1 : dictGet s.indices name = some md)
    (h2 : dictGet s.artifacts name = some art)
    (h3 : ∀ c ∈ art.chunks, c.entry_id ≠ entry_id) :
    remove_entry_from_index s now embedTexts name entry_id = .ok (0, s) := by
  unfold remove_entry_from_index
  rw [if_neg (by rw [h1]; simp)]
  unfold load_index_data
  rw [if_neg (by rw [h1]; simp), h2]
  simp only [h1]
  have hfilter : art.chunks.filter (fun c => c.entry_id ≠ entry_id)
      = art.chunks := by
    rw [List.filter_eq_self]
    intro c hc
    simpa using h3 c hc
  rw [hfilter]
  simp

/-- The chunk stored in the C10 witness index (entry `a`). -/
def c10Chunk : Chunk := ⟨"a", EntryType.paper, 0, "t", none, none, none, 1, 1⟩

/-- The C10 witness state: one index with one persisted chunk. -/
def c10State : RegistryState :=
  ⟨[("idx", novaIndexMd)], [("idx", novaIndexMd)], [("idx", ⟨1, [c10Chunk]⟩)]⟩

theorem remove_entry_absent_noop_witness :
    remove_entry_from_index c10State 9 (fun _ => .error .valueError) "idx" "b"
      = .ok (0, c10State) :=
  remove_entry_absent_noop c10State 9 (fun _ => .error .valueError) "idx" "b"
    novaIndexMd ⟨1, [c10Chunk]⟩ rfl rfl (by decide)

end PaperIndex
